import Mathlib

/-!
# Verification of the structured-cloneable serializer (`scuo-serializer`)

Shallow embedding of the serializer module (safe-character numeral codec,
ArrayBuffer sub-codec, LZ4 block codec, recursive value
serializer/deserializer, compression policy, configuration) and proofs about
the claims of the specification.

Modelling conventions:
* JS strings are `List Nat` of UTF-16 code units; byte buffers are `List Nat`
  with every element `< 256`.
* JS numbers are exact on the integers we reason about (`< 2 ^ 53`), so sizes
  and counters are `Nat`/`Int`; places where a JS expression can become `NaN`
  or `undefined` are modelled with `Option`.
* Loops that can run forever in the source (`deserializeSize` on a string with
  no separator) take an explicit fuel argument and return `none` when the fuel
  runs out; loops the source bounds by the input take their fuel from the
  input size inside a total wrapper.
-/

namespace Scuo

/-! ## Safe alphabet

`SAFECHARS` of the source is the 88 printable ASCII characters with codes
38..91 and 93..126 (codes 32 space = the separator, and 92 backslash, are
excluded).  `intToCharCode`/`charCodeToInt` are the source's lookup arrays in
closed form; the JS arrays hold `0` for every non-safe code below 128 and are
`undefined` beyond 127 (`charCodeToIntU`). -/

def NUMSAFECHARS : Nat := 88

def SEPARATORCHARCODE : Nat := 32

def SAFECHARCODES : List Nat := List.range' 38 54 ++ List.range' 93 34

def intToCharCode (i : Nat) : Nat :=
  if i < 54 then i + 38 else if i < 88 then i + 39 else 0

def charCodeToInt (c : Nat) : Nat :=
  if 38 ≤ c ∧ c ≤ 91 then c - 38
  else if 93 ≤ c ∧ c ≤ 126 then c - 39
  else 0

/-- The JS lookup array `charCodeToInt` has entries only for indices 0..127;
reading it at a code unit ≥ 128 yields `undefined`, modelled as `none`. -/
def charCodeToIntU (c : Nat) : Option Nat :=
  if c < 128 then some (charCodeToInt c) else none

theorem charCodeToIntU_intToCharCode (d : Nat) (hd : d < 88) :
    charCodeToIntU (intToCharCode d) = some (d) := by
  interval_cases d <;> rfl

theorem intToCharCode_ne_sep (d : Nat) (hd : d < 88) :
    intToCharCode d ≠ SEPARATORCHARCODE := by
  interval_cases d <;> decide

/-! ## Numeral codec (`serializeSize` / `deserializeSize`)

`serializeSize` emits the base-88 digits of a size least-significant first,
then the separator.  The digit loop of the source (`r = i % N; s += chr(r);
i -= r; if (i === 0) break; i /= N`) is `sizeDigitsF`; `i - i % 88 = 0` is
exactly `i / 88 = 0`, and the fuel `i + 1` is always sufficient. -/

def sizeDigitsF : Nat → Nat → List Nat
  | 0, _ => []
  | fuel + 1, i => i % 88 :: (if i / 88 = 0 then [] else sizeDigitsF fuel (i / 88))

def serializeSize (i : Nat) : List Nat :=
  (sizeDigitsF (i + 1) i).map intToCharCode ++ [SEPARATORCHARCODE]

theorem sizeDigitsF_congr : ∀ i f₁ f₂, i < f₁ → i < f₂ →
    sizeDigitsF f₁ i = sizeDigitsF f₂ i := by
  intro i
  induction i using Nat.strong_induction_on with
  | _ i ih =>
    intro f₁ f₂ h₁ h₂
    match f₁, f₂, h₁, h₂ with
    | a + 1, b + 1, h₁, h₂ =>
      unfold sizeDigitsF
      rcases Nat.eq_zero_or_pos (i / 88) with hz | hq
      · simp [hz]
      · have hlt : i / 88 < i := Nat.div_lt_self (by omega) (by norm_num)
        rw [if_neg (by omega), if_neg (by omega),
          ih (i / 88) hlt a b (by omega) (by omega)]

theorem sizeDigitsF_stable (fuel i : Nat) (h : i < fuel) :
    sizeDigitsF fuel i = sizeDigitsF (i + 1) i :=
  sizeDigitsF_congr i fuel (i + 1) h (by omega)

theorem sizeDigitsF_ne_nil (i : Nat) : sizeDigitsF (i + 1) i ≠ [] := by
  unfold sizeDigitsF
  simp

theorem sizeDigitsF_lt (i : Nat) : ∀ d ∈ sizeDigitsF (i + 1) i, d < 88 := by
  induction i using Nat.strong_induction_on with
  | _ i ih =>
    intro d hd
    unfold sizeDigitsF at hd
    rcases List.mem_cons.mp hd with rfl | hmem
    · exact Nat.mod_lt _ (by norm_num)
    · rcases Nat.eq_zero_or_pos (i / 88) with hz | hq
      · simp [hz] at hmem
      · rw [if_neg (by omega)] at hmem
        have hlt : i / 88 < i := Nat.div_lt_self (by omega) (by norm_num)
        rw [sizeDigitsF_stable i (i / 88) hlt] at hmem
        exact ih (i / 88) hlt d hmem

/-- Value denoted by a least-significant-first digit list. -/
def valueOfDigits (ds : List Nat) : Nat :=
  ds.foldr (fun d acc => d + acc * 88) 0

theorem valueOfDigits_sizeDigitsF (i : Nat) :
    valueOfDigits (sizeDigitsF (i + 1) i) = i := by
  induction i using Nat.strong_induction_on with
  | _ i ih =>
    unfold sizeDigitsF
    rcases Nat.eq_zero_or_pos (i / 88) with hz | hq
    · have := Nat.mod_add_div i 88
      simp only [if_pos hz, valueOfDigits, List.foldr]
      omega
    · have hlt : i / 88 < i := Nat.div_lt_self (by omega) (by norm_num)
      rw [if_neg (by omega)]
      simp only [valueOfDigits, List.foldr]
      rw [sizeDigitsF_stable i (i / 88) hlt]
      have := ih (i / 88) hlt
      unfold valueOfDigits at this
      rw [this]
      have := Nat.mod_add_div i 88
      omega

/-! `deserializeSize` of the source reads the char at the cursor, takes its
digit value, then loops reading further chars until the separator, adding
`digit * m` with `m` the running power of 88.  A read past the end of the
string yields `NaN` (`none` through `digitOfRead`), which never compares equal
to the separator, so the loop only exits at a genuine separator — and runs
forever when there is none.  The accumulated value is `none` whenever a read
produced `undefined`/`NaN` (codes ≥ 128 or out-of-range reads); its numeric
value is exact for the inputs the encoder produces. -/

def digitOfRead : Option Nat → Option Nat
  | none => none
  | some c => charCodeToIntU c

def addDigit (out d : Option Nat) (m : Nat) : Option Nat :=
  match out, d with
  | some a, some b => some (a + b * m)
  | _, _ => none

def dsLoopF : Nat → List Nat → Nat → Option Nat → Nat → Option (Option Nat × Nat)
  | 0, _, _, _, _ => none
  | fuel + 1, s, ptr, out, m =>
    let c := s[ptr]?
    if c = some SEPARATORCHARCODE then some (out, ptr + 1)
    else dsLoopF fuel s (ptr + 1) (addDigit out (digitOfRead c) m) (m * NUMSAFECHARS)

/-- `deserializeSize`, with explicit fuel; `none` models non-termination.
The result pairs the accumulated value with the final cursor position. -/
def deserializeSizeF (fuel : Nat) (s : List Nat) (ptr : Nat) :
    Option (Option Nat × Nat) :=
  dsLoopF fuel s (ptr + 1) (digitOfRead s[ptr]?) NUMSAFECHARS

/-- List-consuming view of the digit loop, returning the number of consumed
code units instead of an absolute cursor. -/
def dsLoopL : Nat → List Nat → Option Nat → Nat → Option (Option Nat × Nat)
  | 0, _, _, _ => none
  | fuel + 1, s, out, m =>
    if s.head? = some SEPARATORCHARCODE then some (out, 1)
    else (dsLoopL fuel s.tail (addDigit out (digitOfRead s.head?) m)
      (m * NUMSAFECHARS)).map (fun p => (p.1, p.2 + 1))

theorem dsLoopF_eq_dsLoopL (fuel : Nat) : ∀ (s : List Nat) (ptr : Nat)
    (out : Option Nat) (m : Nat),
    dsLoopF fuel s ptr out m =
      (dsLoopL fuel (s.drop ptr) out m).map (fun p => (p.1, ptr + p.2)) := by
  induction fuel with
  | zero => intro s ptr out m; rfl
  | succ f ih =>
    intro s ptr out m
    show dsLoopF (f + 1) s ptr out m = _
    unfold dsLoopF dsLoopL
    rw [List.head?_drop]
    by_cases hc : s[ptr]? = some SEPARATORCHARCODE
    · simp [hc]
    · rw [if_neg hc, if_neg hc, ih, List.tail_drop, Option.map_map]
      congr 1
      funext p
      simp [Function.comp]
      omega

theorem dsLoopL_digits : ∀ (ds : List Nat), (∀ d ∈ ds, d < 88) →
    ∀ (rest : List Nat) (a m fuel : Nat), ds.length < fuel →
    dsLoopL fuel (ds.map intToCharCode ++ SEPARATORCHARCODE :: rest) (some a) m =
      some (some (a + valueOfDigits ds * m), ds.length + 1) := by
  intro ds
  induction ds with
  | nil =>
    intro _ rest a m fuel hfuel
    match fuel, hfuel with
    | f + 1, _ =>
      unfold dsLoopL
      simp [valueOfDigits]
  | cons d ds ih =>
    intro hlt rest a m fuel hfuel
    have hd : d < 88 := hlt d (by simp)
    match fuel, hfuel with
    | f + 1, hfuel =>
      unfold dsLoopL
      have hne : some (intToCharCode d) ≠ some SEPARATORCHARCODE := by
        simpa using intToCharCode_ne_sep d hd
      simp only [List.map_cons, List.cons_append, List.head?_cons, List.tail_cons,
        if_neg hne]
      have hdig : digitOfRead (some (intToCharCode d)) = some d :=
        charCodeToIntU_intToCharCode d hd
      rw [hdig]
      show ((dsLoopL f (ds.map intToCharCode ++ SEPARATORCHARCODE :: rest)
        (addDigit (some a) (some d) m) (m * NUMSAFECHARS)).map
          (fun p => (p.1, p.2 + 1))) = _
      have : addDigit (some a) (some d) m = some (a + d * m) := rfl
      rw [this, ih (fun x hx => hlt x (by simp [hx])) rest (a + d * m)
        (m * NUMSAFECHARS) f (by simpa using Nat.lt_of_succ_lt_succ hfuel)]
      show some (_, _) = some (_, _)
      have hval : a + d * m + valueOfDigits ds * (m * NUMSAFECHARS) =
          a + valueOfDigits (d :: ds) * m := by
        show a + d * m + valueOfDigits ds * (m * 88) =
          a + (d + valueOfDigits ds * 88) * m
        ring
      rw [hval]
      simp

/-- **C8.** `encodeNumeral`/`decodeNumeral` (`serializeSize`/`deserializeSize`)
round trip: for every `n` exactly representable by the host (in particular
every `n ≤ 2^32 - 1`, and in fact every `n < 2^53`), the encoding is at least
one base-88 digit (least-significant first, all digit codes in the safe
alphabet hence distinct from the separator) followed by exactly one separator,
and decoding at the start of the encoding — followed by arbitrary other
content — returns `n` with the cursor one past the separator. -/
theorem c8_numeral_roundtrip (n : Nat) (hn : n < 2 ^ 53) :
    (∃ ds, serializeSize n = ds.map intToCharCode ++ [SEPARATORCHARCODE] ∧
      ds ≠ [] ∧ ∀ d ∈ ds, d < NUMSAFECHARS) ∧
    ∀ rest, deserializeSizeF (serializeSize n).length (serializeSize n ++ rest) 0 =
      some (some n, (serializeSize n).length) := by
  constructor
  · exact ⟨sizeDigitsF (n + 1) n, rfl, sizeDigitsF_ne_nil n, sizeDigitsF_lt n⟩
  · intro rest
    have hlt : ∀ x ∈ sizeDigitsF (n + 1) n, x < 88 := sizeDigitsF_lt n
    have hval : valueOfDigits (sizeDigitsF (n + 1) n) = n := valueOfDigits_sizeDigitsF n
    unfold deserializeSizeF
    rcases hds : sizeDigitsF (n + 1) n with _ | ⟨d, ds⟩
    · exact absurd hds (sizeDigitsF_ne_nil n)
    rw [hds] at hlt hval
    have hd : d < 88 := hlt d (by simp)
    have hs : serializeSize n ++ rest =
        intToCharCode d :: (ds.map intToCharCode ++ SEPARATORCHARCODE :: rest) := by
      unfold serializeSize
      rw [hds]
      simp
    have hlen : (serializeSize n).length = ds.length + 2 := by
      unfold serializeSize
      rw [hds]
      simp
    rw [hs, hlen]
    simp only [List.getElem?_cons_zero, Nat.zero_add]
    rw [show digitOfRead (some (intToCharCode d)) = some d from
      charCodeToIntU_intToCharCode d hd]
    rw [dsLoopF_eq_dsLoopL]
    have hdrop : (intToCharCode d ::
        (ds.map intToCharCode ++ SEPARATORCHARCODE :: rest)).drop 1 =
        ds.map intToCharCode ++ SEPARATORCHARCODE :: rest := rfl
    rw [hdrop, dsLoopL_digits ds (fun x hx => hlt x (by simp [hx])) rest d
      NUMSAFECHARS (ds.length + 2) (by omega)]
    have hval' : d + valueOfDigits ds * NUMSAFECHARS = n := hval
    rw [Option.map_some']
    rw [show (1 : Nat) + (ds.length + 1) = ds.length + 2 from by omega, hval']

/-- Witness for C8 at the concrete input `n = 1000`. -/
theorem c8_numeral_roundtrip_witness :
    1000 < 2 ^ 53 ∧
    deserializeSizeF (serializeSize 1000).length (serializeSize 1000 ++ [38]) 0 =
      some (some 1000, (serializeSize 1000).length) :=
  ⟨by norm_num, (c8_numeral_roundtrip 1000 (by norm_num)).2 [38]⟩

theorem dsLoopF_terminates : ∀ (fuel : Nat) (s : List Nat) (p : Nat)
    (out : Option Nat) (m j : Nat), p ≤ j →
    s[j]? = some SEPARATORCHARCODE →
    (∀ i, p ≤ i → i < j → s[i]? ≠ some SEPARATORCHARCODE) →
    j + 1 - p ≤ fuel →
    ∃ v, dsLoopF fuel s p out m = some (v, j + 1) := by
  intro fuel
  induction fuel with
  | zero => intro s p out m j hpj _ _ hfuel; omega
  | succ f ih =>
    intro s p out m j hpj hj hmin hfuel
    unfold dsLoopF
    rcases Nat.eq_or_lt_of_le hpj with rfl | hlt
    · exact ⟨out, by rw [if_pos hj]⟩
    · rw [if_neg (hmin p le_rfl hlt)]
      exact ih s (p + 1) _ _ j hlt hj (fun i hi => hmin i (by omega)) (by omega)

theorem dsLoopF_diverges : ∀ (fuel : Nat) (s : List Nat) (p : Nat)
    (out : Option Nat) (m : Nat),
    (∀ i, p ≤ i → s[i]? ≠ some SEPARATORCHARCODE) →
    dsLoopF fuel s p out m = none := by
  intro fuel
  induction fuel with
  | zero => intro s p out m _; rfl
  | succ f ih =>
    intro s p out m hns
    unfold dsLoopF
    rw [if_neg (hns p le_rfl)]
    exact ih s (p + 1) _ _ (fun i hi => hns i (by omega))

/-- **C10 (counterexample).** The claim says `decodeNumeral` terminates
precisely when the separator occurs at or after the cursor, consuming the
digits up to the first separator and leaving the cursor one past it.  On the
input `[32, 32]` (separator, separator) with cursor 0 the first separator is
at the cursor itself, so the claim puts the final cursor at `0 + 1 = 1`; the
code consumes the first character unconditionally as a digit (`charCodeToInt`
of the separator is 0) and only exits on the second separator, leaving the
cursor at 2.  (For the same reason the input `[32]` never terminates even
though a separator occurs at the cursor.) -/
theorem c10_counterexample :
    deserializeSizeF 5 [32, 32] 0 = some (some 0, 2) ∧
    deserializeSizeF 5 [32, 32] 0 ≠ some (some 0, 0 + 1) := by
  constructor <;> decide

/-- **C10 (amended).** `decodeNumeral` (`deserializeSize`) consumes the
character at the cursor unconditionally as a digit; it terminates precisely
when the separator occurs *strictly after* the cursor.  If the first
separator strictly after the cursor is at position `j`, the loop terminates
within `j - ptr` iterations leaving the cursor at `j + 1`; if no separator
occurs strictly after the cursor, the digit-accumulation loop never exits
(every fuel bound is exhausted). -/
theorem c10_deserializeSize_termination (s : List Nat) (ptr j : Nat) :
    (ptr < j → s[j]? = some SEPARATORCHARCODE →
      (∀ i, ptr < i → i < j → s[i]? ≠ some SEPARATORCHARCODE) →
      ∀ fuel, j - ptr ≤ fuel →
        ∃ v, deserializeSizeF fuel s ptr = some (v, j + 1)) ∧
    ((∀ i, ptr < i → s[i]? ≠ some SEPARATORCHARCODE) →
      ∀ fuel, deserializeSizeF fuel s ptr = none) := by
  constructor
  · intro hpj hj hmin fuel hfuel
    exact dsLoopF_terminates fuel s (ptr + 1) _ _ j (by omega) hj
      (fun i hi₁ hi₂ => hmin i (by omega) hi₂) (by omega)
  · intro hns fuel
    exact dsLoopF_diverges fuel s (ptr + 1) _ _ (fun i hi => hns i (by omega))

/-- Witness for C10 (amended): on `[38, 32]` (digit `&`, separator) the first
separator strictly after cursor 0 is at 1, and decoding with fuel 5 stops with
cursor 2; on `[38, 38]` (no separator anywhere) fuel 7 is exhausted. -/
theorem c10_deserializeSize_termination_witness :
    (∃ v, deserializeSizeF 5 [38, 32] 0 = some (v, 2)) ∧
    deserializeSizeF 7 [38, 38] 0 = none := by
  constructor
  · exact (c10_deserializeSize_termination [38, 32] 0 1).1 (by omega) (by decide)
      (by intro i h1 h2; omega) 5 (by omega)
  · refine (c10_deserializeSize_termination [38, 38] 0 0).2 ?_ 7
    intro i hi
    match i, hi with
    | 1, _ => decide
    | (n + 2), _ =>
      show ([38, 38] : List Nat)[n + 2]? ≠ some SEPARATORCHARCODE
      rw [show ([38, 38] : List Nat)[n + 2]? = none from by
        apply List.getElem?_eq_none
        simp]
      simp

/-! ## Magic prefixes and `canDeserialize`

`MAGICPREFIX = "UOSC_1 "` and `MAGICLZ4PREFIX = "UOSC/lz4_1 "` (with
`VERSION = 1` and the trailing separator), as code-unit lists. -/

def MAGICPREFIX : List Nat := [85, 79, 83, 67, 95, 49, 32]

def MAGICLZ4PREFIX : List Nat := [85, 79, 83, 67, 47, 108, 122, 52, 95, 49, 32]

/-- `canDeserialize`: the input is a string (our model type) starting with one
of the two magic prefixes.  No payload decoding happens. -/
def canDeserialize (s : List Nat) : Bool :=
  MAGICLZ4PREFIX.isPrefixOf s || MAGICPREFIX.isPrefixOf s

/-- **C9.** `canDeserialize` returns true iff the string begins with exactly
one of the two magic+version prefixes — for every string, including the empty
string and truncated prefixes; the two prefixes are mutually exclusive (they
differ at index 4), so "one of" is always "exactly one of". -/
theorem c9_canDeserialize_iff (s : List Nat) :
    (canDeserialize s = true ↔ (MAGICPREFIX <+: s ∨ MAGICLZ4PREFIX <+: s)) ∧
    ¬(MAGICPREFIX <+: s ∧ MAGICLZ4PREFIX <+: s) := by
  constructor
  · unfold canDeserialize
    rw [Bool.or_eq_true, List.isPrefixOf_iff_prefix, List.isPrefixOf_iff_prefix]
    exact or_comm
  · rintro ⟨⟨t₁, ht₁⟩, ⟨t₂, ht₂⟩⟩
    rw [← ht₁] at ht₂
    simp [MAGICPREFIX, MAGICLZ4PREFIX] at ht₂

/-! ## Configuration (`getConfig` / `setConfig`)

The recognized options are `maxThreadCount` (default 2) and `threadTTL`
(default 5000).  The source iterates `for ( const key in Object.keys(config) )`:
a `for…in` over the *array* returned by `Object.keys`, so `key` ranges over
the array's own enumerable property names — the decimal index strings `"0"`,
`"1"`, … — not over the names of `config`'s properties.  Key strings are
code-unit lists here; `natKeyCodes i` is the decimal string of `i`. -/

def decDigitsRevF : Nat → Nat → List Nat
  | 0, _ => []
  | fuel + 1, i => i % 10 :: (if i / 10 = 0 then [] else decDigitsRevF fuel (i / 10))

/-- Decimal representation of `i` as a code-unit list (`"0"` is `[48]`). -/
def natKeyCodes (i : Nat) : List Nat :=
  ((decDigitsRevF (i + 1) i).reverse).map (· + 48)

/-- `"maxThreadCount"` as code units. -/
def mtcKey : List Nat :=
  [109, 97, 120, 84, 104, 114, 101, 97, 100, 67, 111, 117, 110, 116]

/-- `"threadTTL"` as code units. -/
def ttlKey : List Nat := [116, 104, 114, 101, 97, 100, 84, 84, 76]

structure Config where
  maxThreadCount : Int
  threadTTL : Int
deriving DecidableEq, Repr

def defaultConfig : Config := ⟨2, 5000⟩

/-- A JS value sitting in a (partial) configuration object. -/
inductive JSAtom where
  | num (v : Int)
  | bool (b : Bool)
  | str (s : List Nat)
  | jsUndefined
deriving DecidableEq, Repr

/-- `defaultConfig.hasOwnProperty(key)`. -/
def defaultConfigHasKey (k : List Nat) : Bool :=
  decide (k = mtcKey) || decide (k = ttlKey)

/-- `config[key]`, `undefined` when absent. -/
def configLookup (cfg : List (List Nat × JSAtom)) (k : List Nat) : JSAtom :=
  match cfg.find? (fun p => decide (p.1 = k)) with
  | some p => p.2
  | none => .jsUndefined

/-- Body of the `setConfig` loop for one key: the `typeof` check against the
default's type (`number` for both recognized keys), the per-key validation
(`maxThreadCount ≥ 1`, `threadTTL ≥ 0`), then the assignment. -/
def applyConfigKey (cur : Config) (k : List Nat) (v : JSAtom) : Config :=
  if k = mtcKey then
    match v with
    | .num x => if 1 ≤ x then { cur with maxThreadCount := x } else cur
    | _ => cur
  else if k = ttlKey then
    match v with
    | .num x => if 0 ≤ x then { cur with threadTTL := x } else cur
    | _ => cur
  else cur

/-- `setConfig`, acting on an explicit current configuration: iterate the
`for…in` keys of the array `Object.keys(config)` — the index strings — and
for each, skip unless `defaultConfig.hasOwnProperty(key)`. -/
def setConfig (cur : Config) (cfg : List (List Nat × JSAtom)) : Config :=
  (List.range cfg.length).foldl
    (fun acc i =>
      if defaultConfigHasKey (natKeyCodes i) then
        applyConfigKey acc (natKeyCodes i) (configLookup cfg (natKeyCodes i))
      else acc)
    cur

/-- `getConfig` returns a copy of the current configuration. -/
def getConfig (cur : Config) : Config := cur

theorem decDigitsRevF_lt (fuel : Nat) : ∀ i, ∀ d ∈ decDigitsRevF fuel i, d < 10 := by
  induction fuel with
  | zero => intro i d hd; simp [decDigitsRevF] at hd
  | succ f ih =>
    intro i d hd
    unfold decDigitsRevF at hd
    rcases List.mem_cons.mp hd with rfl | hmem
    · exact Nat.mod_lt _ (by norm_num)
    · rcases Nat.eq_zero_or_pos (i / 10) with hz | hq
      · simp [hz] at hmem
      · rw [if_neg (by omega)] at hmem
        exact ih (i / 10) d hmem

theorem natKeyCodes_digits (i : Nat) : ∀ c ∈ natKeyCodes i, 48 ≤ c ∧ c ≤ 57 := by
  intro c hc
  unfold natKeyCodes at hc
  rcases List.mem_map.mp hc with ⟨d, hd, rfl⟩
  have := decDigitsRevF_lt (i + 1) i d (List.mem_reverse.mp hd)
  omega

theorem defaultConfigHasKey_natKeyCodes (i : Nat) :
    defaultConfigHasKey (natKeyCodes i) = false := by
  unfold defaultConfigHasKey
  have h1 : natKeyCodes i ≠ mtcKey := by
    intro h
    have : (109 : Nat) ∈ natKeyCodes i := by rw [h]; decide
    have := natKeyCodes_digits i 109 this
    omega
  have h2 : natKeyCodes i ≠ ttlKey := by
    intro h
    have : (116 : Nat) ∈ natKeyCodes i := by rw [h]; decide
    have := natKeyCodes_digits i 116 this
    omega
  simp [h1, h2]

theorem foldl_fixed_of_mem {α β : Type} (f : α → β → α) (l : List β) :
    (∀ acc b, b ∈ l → f acc b = acc) → ∀ acc, l.foldl f acc = acc := by
  induction l with
  | nil => intro _ acc; rfl
  | cons x xs ih =>
    intro h acc
    rw [List.foldl_cons, h acc x (by simp),
      ih (fun acc b hb => h acc b (by simp [hb])) acc]

/-- `setConfig` never changes anything: the `for…in` keys are the array index
strings, none of which is a recognized option name. -/
theorem setConfig_eq_self (cur : Config) (cfg : List (List Nat × JSAtom)) :
    setConfig cur cfg = cur := by
  unfold setConfig
  apply foldl_fixed_of_mem
  intro acc i _
  rw [defaultConfigHasKey_natKeyCodes i]
  simp

/-- **C3.** The claim says `setConfig({maxThreadCount: 4})` — a recognized
key, correct type, passing validation `4 ≥ 1` — updates the configuration so
that `getConfig` reports 4.  The code iterates `for…in` over the array
`Object.keys(config)` instead of `for…of`, so the loop variable takes the
index strings of that array, `defaultConfig.hasOwnProperty` rejects every one
of them, and no key is ever updated: `getConfig` still reports the prior value
2.  The dead validation machinery (`validateConfig`) shows the claim (and the
spec) describe the intent; the `in`/`of` slip is a code bug. -/
theorem c3_setConfig_update_lost :
    setConfig defaultConfig [(mtcKey, .num 4)] = defaultConfig ∧
    (getConfig (setConfig defaultConfig [(mtcKey, .num 4)])).maxThreadCount = 2 ∧
    (getConfig (setConfig defaultConfig [(mtcKey, .num 4)])).maxThreadCount ≠ 4 := by
  refine ⟨setConfig_eq_self _ _, ?_, ?_⟩ <;>
    rw [getConfig, setConfig_eq_self] <;> decide

/-! ## Type tags

`iota`-numbered type tags of the source and their safe-alphabet characters. -/

def I_STRING_SMALL : Nat := 1
def I_STRING_LARGE : Nat := 2
def I_ZERO : Nat := 3
def I_INTEGER_SMALL_POS : Nat := 4
def I_INTEGER_SMALL_NEG : Nat := 5
def I_INTEGER_LARGE_POS : Nat := 6
def I_INTEGER_LARGE_NEG : Nat := 7
def I_BOOL_FALSE : Nat := 8
def I_BOOL_TRUE : Nat := 9
def I_NULL : Nat := 10
def I_UNDEFINED : Nat := 11
def I_FLOAT : Nat := 12
def I_REGEXP : Nat := 13
def I_DATE : Nat := 14
def I_REFERENCE : Nat := 15
def I_SMALL_OBJECT : Nat := 16
def I_LARGE_OBJECT : Nat := 17
def I_ARRAY_SMALL : Nat := 18
def I_ARRAY_LARGE : Nat := 19
def I_SET_SMALL : Nat := 20
def I_SET_LARGE : Nat := 21
def I_MAP_SMALL : Nat := 22
def I_MAP_LARGE : Nat := 23
def I_ARRAYBUFFER : Nat := 24
def I_INT8ARRAY : Nat := 25
def I_UINT8ARRAY : Nat := 26
def I_UINT8CLAMPEDARRAY : Nat := 27
def I_INT16ARRAY : Nat := 28
def I_UINT16ARRAY : Nat := 29
def I_INT32ARRAY : Nat := 30
def I_UINT32ARRAY : Nat := 31
def I_FLOAT32ARRAY : Nat := 32
def I_FLOAT64ARRAY : Nat := 33
def I_DATAVIEW : Nat := 34

def C_ZERO : Nat := intToCharCode I_ZERO
def C_INTEGER_SMALL_POS : Nat := intToCharCode I_INTEGER_SMALL_POS
def C_INTEGER_SMALL_NEG : Nat := intToCharCode I_INTEGER_SMALL_NEG
def C_INTEGER_LARGE_POS : Nat := intToCharCode I_INTEGER_LARGE_POS
def C_INTEGER_LARGE_NEG : Nat := intToCharCode I_INTEGER_LARGE_NEG

/-! ## ArrayBuffer sub-codec

Byte buffers are `List Nat` with every entry `< 256`.  Typed-array reads out
of range yield `undefined`; every read below is in range for the arguments
the codec passes, so reads are `getD _ _ 0`.  Typed-array writes out of range
are silently dropped, which is exactly `List.set`'s behaviour. -/

/-- Unsigned 32-bit word at word index `i` (little endian), as `Uint32Array`
and `Int32Array` expose it (the latter reinterprets the sign, `int32At`). -/
def w32 (b : List Nat) (i : Nat) : Nat :=
  b.getD (4 * i) 0 + 256 * b.getD (4 * i + 1) 0 +
    65536 * b.getD (4 * i + 2) 0 + 16777216 * b.getD (4 * i + 3) 0

/-- Signed 32-bit word at word index `i` (`Int32Array` read). -/
def int32At (b : List Nat) (i : Nat) : Int :=
  if w32 b i < 2 ^ 31 then (w32 b i : Int) else (w32 b i : Int) - 2 ^ 32

/-- Signed byte at index `i` (`Int8Array` read). -/
def int8At (b : List Nat) (i : Nat) : Int :=
  if b.getD i 0 < 128 then (b.getD i 0 : Int) else (b.getD i 0 : Int) - 256

/-- Trimmed content length: `notzeroCount` is one past the highest non-zero
32-bit word; with at least one trailing all-zero word
(`notzeroCount + 1 <= int32len`) the content is the non-zero words only —
dropping the 1–3 leftover bytes too — otherwise the whole buffer. -/
def notzeroCount (b : List Nat) : Nat :=
  match (List.range (b.length / 4)).reverse.find? (fun i => decide (w32 b i ≠ 0)) with
  | some i => i + 1
  | none => 0

def contentByteLength (b : List Nat) : Nat :=
  if notzeroCount b + 1 ≤ b.length / 4 then 4 * notzeroCount b else b.length

/-- Estimated serialized size of one sparse item.  The source computes the
digit count of a large value as `(Math.log2(v) / BITS_PER_SAFECHARS | 0) + 1`;
over the reals `log2 v / log2 88 = log_88 v`, i.e. `log88 v` after
truncation (float rounding could shift this by one near a power of 88, which
can only flip the dense/sparse *choice*, never the decoded bytes). -/
def log88F : Nat → Nat → Nat
  | 0, _ => 0
  | fuel + 1, v => if v < 88 then 0 else log88F fuel (v / 88) + 1

/-- Base-88 logarithm (each recursion step divides by 88, so fuel `v` always
suffices). -/
def log88 (v : Nat) : Nat := log88F v v

def sparseItemEst (v : Int) : Nat :=
  if v = 0 then 1
  else if 88 ≤ v then 2 + (log88 v.toNat + 1)
  else if v ≤ -88 then 2 + (log88 (-v).toNat + 1)
  else 2

/-- The early-exit loop accumulating the sparse estimate: returns `true`
(dense) as soon as the estimate exceeds the dense size. -/
def analyzeLoop (b : List Nat) (denseSize : Nat) : List Nat → Nat → Bool
  | [], _ => false
  | i :: rest, acc =>
    let acc' := acc + sparseItemEst (int32At b i)
    if denseSize < acc' then true else analyzeLoop b denseSize rest acc'

/-- `analyzeArrayBuffer`: the trimmed content length and the dense/sparse
choice. -/
def analyzeArrayBuffer (b : List Nat) : Nat × Bool :=
  let cbl := contentByteLength b
  let cLen := cbl / 4
  let cRem := cbl % 4
  let denseSize := cLen * 5 + (if cRem ≠ 0 then cRem + 1 else 0)
  (cbl, analyzeLoop b denseSize (List.range cLen) 0)

/-- The five base-88 digit characters of one 32-bit word. -/
def word5 (v : Nat) : List Nat :=
  [intToCharCode (v % 88), intToCharCode (v / 88 % 88),
   intToCharCode (v / 88 ^ 2 % 88), intToCharCode (v / 88 ^ 3 % 88),
   intToCharCode (v / 88 ^ 4)]

/-- The `m + 1` base-88 digit characters of the 1–3 leftover bytes packed
little-endian into `v`. -/
def remDigits (m v : Nat) : List Nat :=
  [intToCharCode (v % 88), intToCharCode (v / 88 % 88)] ++
    (if 1 < m then [intToCharCode (v / 88 ^ 2 % 88)] else []) ++
    (if 2 < m then [intToCharCode (v / 88 ^ 3 % 88)] else [])

/-- `denseArrayBufferToStr(b, e)`. -/
def denseArrayBufferToStr (b : List Nat) (e : Nat) : List Nat :=
  let m := e % 4
  let n := e - m
  (List.range (n / 4)).flatMap (fun i => word5 (w32 b i)) ++
    (if m = 0 then [] else
      let v := b.getD n 0 + (if 1 < m then 256 * b.getD (n + 1) 0 else 0) +
        (if 2 < m then 65536 * b.getD (n + 2) 0 else 0)
      remDigits m v)

/-- Write the 32-bit word `v` at word index `j` (`Uint32Array` store). -/
def setWord4 (buf : List Nat) (j v : Nat) : List Nat :=
  ((((buf.set (4 * j) (v % 256)).set (4 * j + 1) (v / 256 % 256)).set
    (4 * j + 2) (v / 65536 % 256)).set (4 * j + 3) (v / 16777216 % 256))

/-- The trailing write cascade of `denseArrayBufferFromStr`: write the low
byte, then — only while the remaining value is non-zero — shift and write the
next byte (writes past the end of the buffer are dropped). -/
def writeRem (buf : List Nat) (off v : Nat) : List Nat :=
  let b0 := buf.set off (v % 256)
  if v = 0 then b0
  else
    let v1 := v / 256
    let b1 := b0.set (off + 1) (v1 % 256)
    if v1 = 0 then b1
    else b1.set (off + 2) (v1 / 256 % 256)

/-- Decoded 32-bit word from five digit characters at `i`.  (A non-safe
character would make the JS value `NaN` and the stored word 0; encoder output
contains only safe characters.) -/
def word32FromDigits (s : List Nat) (i : Nat) : Nat :=
  charCodeToInt (s.getD i 0) + 88 * charCodeToInt (s.getD (i + 1) 0) +
    88 ^ 2 * charCodeToInt (s.getD (i + 2) 0) +
    88 ^ 3 * charCodeToInt (s.getD (i + 3) 0) +
    88 ^ 4 * charCodeToInt (s.getD (i + 4) 0)

/-- `denseArrayBufferFromStr(s, buf)`. -/
def denseArrayBufferFromStr (s : List Nat) (buf : List Nat) : List Nat :=
  let e := s.length
  let m := e % 5
  let n := e - m
  let buf₁ := (List.range (n / 5)).foldl
    (fun acc j => setWord4 acc j (word32FromDigits s (5 * j))) buf
  if m = 0 then buf₁
  else
    let v := charCodeToInt (s.getD n 0) + 88 * charCodeToInt (s.getD (n + 1) 0) +
      (if 2 < m then 88 ^ 2 * charCodeToInt (s.getD (n + 2) 0) else 0) +
      (if 3 < m then 88 ^ 3 * charCodeToInt (s.getD (n + 3) 0) else 0)
    writeRem buf₁ (4 * (n / 5)) v

/-- Serialized form of one sparse item (`Int32Array`/`Int8Array` element). -/
def sparseItem (n : Int) : List Nat :=
  if n = 0 then [C_ZERO]
  else if 88 ≤ n then C_INTEGER_LARGE_POS :: serializeSize n.toNat
  else if 0 < n then [C_INTEGER_SMALL_POS, intToCharCode n.toNat]
  else if -88 < n then [C_INTEGER_SMALL_NEG, intToCharCode (-n).toNat]
  else C_INTEGER_LARGE_NEG :: serializeSize (-n).toNat

/-- `sparseArrayBufferToStr(b, e)`: the declared size, the full words as
signed tagged items, then the 1–3 leftover bytes as signed byte items. -/
def sparseArrayBufferToStr (b : List Nat) (e : Nat) : List Nat :=
  serializeSize e ++
    (List.range (e / 4)).flatMap (fun i => sparseItem (int32At b i)) ++
    (List.range (e % 4)).flatMap (fun k => sparseItem (int8At b (e - e % 4 + k)))

/-- 32-bit store of a signed value (`Int32Array` write coerces mod `2^32`). -/
def toUint32 (x : Int) : Nat := (x % (2 ^ 32 : Int)).toNat

/-- 8-bit store of a signed value (`Int8Array` write coerces mod `2^8`). -/
def toUint8 (x : Int) : Nat := (x % (256 : Int)).toNat

/-- One step of the sparse decoding switch for a 32-bit element: reads the
type character, then the payload; unknown characters fall through without
writing (`switch` default).  A diverging `deserializeSize` read propagates as
`none`. -/
def sparseStep32 (s : List Nat) (i : Nat) :
    Nat × List Nat → Option (Nat × List Nat) :=
  fun st =>
    let ptr := st.1
    let buf := st.2
    let t := charCodeToInt (s.getD ptr 0)
    if t = I_ZERO then some (ptr + 1, buf)
    else if t = I_INTEGER_SMALL_POS then
      some (ptr + 2, setWord4 buf i (toUint32 (charCodeToInt (s.getD (ptr + 1) 0))))
    else if t = I_INTEGER_SMALL_NEG then
      some (ptr + 2, setWord4 buf i (toUint32 (-(charCodeToInt (s.getD (ptr + 1) 0) : Int))))
    else if t = I_INTEGER_LARGE_POS then
      match deserializeSizeF (s.length + 1) s (ptr + 1) with
      | some (v, ptr') => some (ptr', setWord4 buf i (toUint32 (v.getD 0)))
      | none => none
    else if t = I_INTEGER_LARGE_NEG then
      match deserializeSizeF (s.length + 1) s (ptr + 1) with
      | some (v, ptr') => some (ptr', setWord4 buf i (toUint32 (-(v.getD 0 : Int))))
      | none => none
    else some (ptr + 1, buf)

/-- One step of the sparse decoding switch for a trailing byte element. -/
def sparseStep8 (s : List Nat) (pos : Nat) :
    Nat × List Nat → Option (Nat × List Nat) :=
  fun st =>
    let ptr := st.1
    let buf := st.2
    let t := charCodeToInt (s.getD ptr 0)
    if t = I_ZERO then some (ptr + 1, buf)
    else if t = I_INTEGER_SMALL_POS then
      some (ptr + 2, buf.set pos (toUint8 (charCodeToInt (s.getD (ptr + 1) 0))))
    else if t = I_INTEGER_SMALL_NEG then
      some (ptr + 2, buf.set pos (toUint8 (-(charCodeToInt (s.getD (ptr + 1) 0) : Int))))
    else if t = I_INTEGER_LARGE_POS then
      match deserializeSizeF (s.length + 1) s (ptr + 1) with
      | some (v, ptr') => some (ptr', buf.set pos (toUint8 (v.getD 0)))
      | none => none
    else if t = I_INTEGER_LARGE_NEG then
      match deserializeSizeF (s.length + 1) s (ptr + 1) with
      | some (v, ptr') => some (ptr', buf.set pos (toUint8 (-(v.getD 0 : Int))))
      | none => none
    else some (ptr + 1, buf)

/-- `sparseArrayBufferFromStr(s, buf)`: read the declared size, decode that
many 32-bit items, then the trailing byte items.  `none` models the
non-terminating reads of a malformed stream. -/
def sparseArrayBufferFromStr (s : List Nat) (buf : List Nat) :
    Option (List Nat) := do
  let r ← deserializeSizeF (s.length + 1) s 0
  let e := r.1.getD 0
  let st₁ ← (List.range (e / 4)).foldlM (fun st i => sparseStep32 s i st)
    (r.2, buf)
  let st₂ ← (List.range (e % 4)).foldlM
    (fun st k => sparseStep8 s (e - e % 4 + k) st) st₁
  return st₂.2

/-- Dense path of the sub-codec end to end: trim, encode, decode into a fresh
zero buffer of the original byte length (as the ArrayBuffer case of
`_deserialize` does). -/
def denseRoundTrip (b : List Nat) : List Nat :=
  denseArrayBufferFromStr (denseArrayBufferToStr b (contentByteLength b))
    (List.replicate b.length 0)

/-- Sparse path of the sub-codec end to end. -/
def sparseRoundTrip (b : List Nat) : Option (List Nat) :=
  sparseArrayBufferFromStr (sparseArrayBufferToStr b (contentByteLength b))
    (List.replicate b.length 0)

/-- **C4 (counterexample).** The 5-byte buffer `[0,0,0,0,1]` has one all-zero
trailing 4-byte word, so `analyzeArrayBuffer` trims the content to 0 bytes —
*including* the non-zero leftover byte `1`, which the claim says is preserved.
Both the dense and the sparse path then decode to five zero bytes, not the
original buffer: the round trip is lossy. -/
theorem c4_counterexample :
    contentByteLength [0, 0, 0, 0, 1] = 0 ∧
    denseRoundTrip [0, 0, 0, 0, 1] = [0, 0, 0, 0, 0] ∧
    sparseRoundTrip [0, 0, 0, 0, 1] = some [0, 0, 0, 0, 0] ∧
    ([0, 0, 0, 0, 0] : List Nat) ≠ [0, 0, 0, 0, 1] := by
  refine ⟨by decide, by decide, by decide, by decide⟩

theorem getD_lt_256 (b : List Nat) (hb : ∀ x ∈ b, x < 256) (i : Nat) :
    b.getD i 0 < 256 := by
  rw [List.getD_eq_getElem?_getD]
  rcases h : b[i]? with _ | x
  · simp
  · simp only [Option.getD_some]
    obtain ⟨hlt, rfl⟩ := List.getElem?_eq_some.mp h
    exact hb _ (b.getElem_mem hlt)

theorem w32_lt (b : List Nat) (hb : ∀ x ∈ b, x < 256) (i : Nat) :
    w32 b i < 2 ^ 32 := by
  have h0 := getD_lt_256 b hb (4 * i)
  have h1 := getD_lt_256 b hb (4 * i + 1)
  have h2 := getD_lt_256 b hb (4 * i + 2)
  have h3 := getD_lt_256 b hb (4 * i + 3)
  unfold w32
  omega

theorem w32_byte (b : List Nat) (hb : ∀ x ∈ b, x < 256) (j r : Nat) (hr : r < 4) :
    w32 b j / 2 ^ (8 * r) % 256 = b.getD (4 * j + r) 0 := by
  have h0 := getD_lt_256 b hb (4 * j)
  have h1 := getD_lt_256 b hb (4 * j + 1)
  have h2 := getD_lt_256 b hb (4 * j + 2)
  have h3 := getD_lt_256 b hb (4 * j + 3)
  unfold w32
  interval_cases r
  · simp only [Nat.mul_zero, pow_zero, Nat.div_one, Nat.add_zero]
    omega
  · rw [show (2 : Nat) ^ (8 * 1) = 256 from by norm_num]
    omega
  · rw [show (2 : Nat) ^ (8 * 2) = 65536 from by norm_num]
    omega
  · rw [show (2 : Nat) ^ (8 * 3) = 16777216 from by norm_num]
    omega

theorem w32_eq_zero (b : List Nat) (j : Nat) (h : w32 b j = 0) :
    ∀ r, r < 4 → b.getD (4 * j + r) 0 = 0 := by
  intro r hr
  unfold w32 at h
  interval_cases r
  · rw [Nat.add_zero]
    omega
  · omega
  · omega
  · omega

theorem length_setWord4 (buf : List Nat) (j v : Nat) :
    (setWord4 buf j v).length = buf.length := by
  unfold setWord4
  simp [List.length_set]

theorem getElem?_setWord4 (buf : List Nat) (j v i : Nat) :
    (setWord4 buf j v)[i]? =
      if 4 * j ≤ i ∧ i < 4 * j + 4 ∧ i < buf.length then
        some (v / 2 ^ (8 * (i - 4 * j)) % 256)
      else buf[i]? := by
  unfold setWord4
  by_cases hil : i < buf.length
  · by_cases h0 : i = 4 * j
    · rw [List.getElem?_set_ne (by omega), List.getElem?_set_ne (by omega),
        List.getElem?_set_ne (by omega), h0,
        List.getElem?_set_eq (by omega)]
      rw [if_pos ⟨by omega, by omega, by omega⟩,
        show 8 * (4 * j - 4 * j) = 0 from by omega]
      norm_num
    · by_cases h1 : i = 4 * j + 1
      · rw [List.getElem?_set_ne (by omega), List.getElem?_set_ne (by omega), h1,
          List.getElem?_set_eq (by rw [List.length_set]; omega)]
        rw [if_pos ⟨by omega, by omega, by omega⟩,
          show 8 * (4 * j + 1 - 4 * j) = 8 from by omega,
          show (2 : Nat) ^ 8 = 256 from by norm_num]
      · by_cases h2 : i = 4 * j + 2
        · rw [List.getElem?_set_ne (by omega), h2,
            List.getElem?_set_eq (by rw [List.length_set, List.length_set]; omega)]
          rw [if_pos ⟨by omega, by omega, by omega⟩,
            show 8 * (4 * j + 2 - 4 * j) = 16 from by omega,
            show (2 : Nat) ^ 16 = 65536 from by norm_num]
        · by_cases h3 : i = 4 * j + 3
          · rw [h3, List.getElem?_set_eq
              (by rw [List.length_set, List.length_set, List.length_set]; omega)]
            rw [if_pos ⟨by omega, by omega, by omega⟩,
              show 8 * (4 * j + 3 - 4 * j) = 24 from by omega,
              show (2 : Nat) ^ 24 = 16777216 from by norm_num]
          · rw [List.getElem?_set_ne (by omega), List.getElem?_set_ne (by omega),
              List.getElem?_set_ne (by omega), List.getElem?_set_ne (by omega),
              if_neg (by omega)]
  · rw [if_neg (by omega),
      List.getElem?_eq_none (by
        rw [List.length_set, List.length_set, List.length_set, List.length_set]
        omega),
      List.getElem?_eq_none (by omega)]

theorem foldl_setWord4_getElem? (g : Nat → Nat) :
    ∀ (W c : Nat) (buf : List Nat) (i : Nat),
      ((List.range' c W).foldl (fun acc j => setWord4 acc j (g j)) buf)[i]? =
        if 4 * c ≤ i ∧ i < 4 * (c + W) ∧ i < buf.length then
          some (g (i / 4) / 2 ^ (8 * (i % 4)) % 256)
        else buf[i]? := by
  intro W
  induction W with
  | zero =>
    intro c buf i
    rw [if_neg (by omega)]
    rfl
  | succ W ih =>
    intro c buf i
    rw [List.range'_succ, List.foldl_cons, ih (c + 1) (setWord4 buf c (g c)) i,
      length_setWord4, getElem?_setWord4]
    by_cases hB : 4 * (c + 1) ≤ i ∧ i < 4 * (c + 1 + W) ∧ i < buf.length
    · rw [if_pos hB, if_pos (by omega)]
    · rw [if_neg hB]
      by_cases hA : 4 * c ≤ i ∧ i < 4 * c + 4 ∧ i < buf.length
      · rw [if_pos hA, if_pos (by omega)]
        have hdiv : i / 4 = c := by omega
        have hmod : i % 4 = i - 4 * c := by omega
        rw [hdiv, hmod]
      · rw [if_neg hA, if_neg (by omega)]

theorem charCodeToInt_intToCharCode (d : Nat) (hd : d < 88) :
    charCodeToInt (intToCharCode d) = d := by
  interval_cases d <;> rfl

theorem length_flatMap_word5 (f : Nat → Nat) :
    ∀ (W c : Nat), ((List.range' c W).flatMap (fun i => word5 (f i))).length = 5 * W := by
  intro W
  induction W with
  | zero => intro c; rfl
  | succ W ih =>
    intro c
    rw [List.range'_succ, List.flatMap_cons, List.length_append, ih (c + 1)]
    simp [word5]
    omega

theorem getD_flatMap_word5 (f : Nat → Nat) :
    ∀ (j W c k : Nat), j < W → k < 5 →
      ((List.range' c W).flatMap (fun i => word5 (f i))).getD (5 * j + k) 0 =
        (word5 (f (c + j))).getD k 0 := by
  intro j
  induction j with
  | zero =>
    intro W c k hj hk
    match W, hj with
    | W + 1, _ =>
      rw [List.range'_succ, List.flatMap_cons, List.getD_eq_getElem?_getD,
        List.getElem?_append_left (by simp [word5]; omega)]
      rw [← List.getD_eq_getElem?_getD]
      norm_num
  | succ j ih =>
    intro W c k hj hk
    match W, hj with
    | W + 1, hj =>
      rw [List.range'_succ, List.flatMap_cons, List.getD_eq_getElem?_getD,
        List.getElem?_append_right (by simp [word5]; omega)]
      have hlen : (word5 (f c)).length = 5 := by simp [word5]
      rw [hlen, ← List.getD_eq_getElem?_getD,
        show 5 * (j + 1) + k - 5 = 5 * j + k from by omega,
        ih W (c + 1) k (by omega) hk,
        show c + 1 + j = c + (j + 1) from by omega]

theorem word5_getD_eq (v : Nat) (hv : v < 2 ^ 32) :
    word32FromDigits (word5 v) 0 = v := by
  unfold word32FromDigits word5
  simp only [List.getD_eq_getElem?_getD]
  norm_num
  rw [charCodeToInt_intToCharCode _ (Nat.mod_lt _ (by norm_num)),
    charCodeToInt_intToCharCode _ (Nat.mod_lt _ (by norm_num)),
    charCodeToInt_intToCharCode _ (Nat.mod_lt _ (by norm_num)),
    charCodeToInt_intToCharCode _ (Nat.mod_lt _ (by norm_num)),
    charCodeToInt_intToCharCode _ (by
      have : (88 : Nat) ^ 4 = 59969536 := by norm_num
      omega)]
  omega

theorem contentByteLength_le (b : List Nat) : contentByteLength b ≤ b.length := by
  unfold contentByteLength
  split
  · have : b.length / 4 * 4 ≤ b.length := Nat.div_mul_le_self _ _
    omega
  · exact le_rfl

theorem contentByteLength_mod (b : List Nat)
    (h : contentByteLength b % 4 ≠ 0) : contentByteLength b = b.length := by
  unfold contentByteLength at h ⊢
  by_cases hc : notzeroCount b + 1 ≤ b.length / 4
  · rw [if_pos hc] at h
    omega
  · rw [if_neg hc]

theorem length_remDigits (m v : Nat) (h0 : 0 < m) (h4 : m < 4) :
    (remDigits m v).length = m + 1 := by
  interval_cases m <;> simp [remDigits]

/-- Decoding five digit characters sitting at offset `i` of a larger string
recovers the encoded word. -/
theorem word32FromDigits_eq_of (s : List Nat) (i v : Nat) (hv : v < 2 ^ 32)
    (h : ∀ k, k < 5 → s.getD (i + k) 0 = (word5 v).getD k 0) :
    word32FromDigits s i = v := by
  have h0 := h 0 (by norm_num)
  have h1 := h 1 (by norm_num)
  have h2 := h 2 (by norm_num)
  have h3 := h 3 (by norm_num)
  have h4 := h 4 (by norm_num)
  rw [Nat.add_zero] at h0
  unfold word32FromDigits
  rw [h0, h1, h2, h3, h4]
  have hw := word5_getD_eq v hv
  unfold word32FromDigits at hw
  norm_num at hw ⊢
  exact hw

theorem length_writeRem (buf : List Nat) (off v : Nat) :
    (writeRem buf off v).length = buf.length := by
  simp only [writeRem]
  split_ifs <;> simp [List.length_set]

theorem getElem?_writeRem (buf : List Nat) (off v i : Nat) :
    (writeRem buf off v)[i]? =
      if i = off ∧ i < buf.length then some (v % 256)
      else if i = off + 1 ∧ i < buf.length ∧ v ≠ 0 then some (v / 256 % 256)
      else if i = off + 2 ∧ i < buf.length ∧ v ≠ 0 ∧ v / 256 ≠ 0 then
        some (v / 256 / 256 % 256)
      else buf[i]? := by
  simp only [writeRem]
  by_cases hv : v = 0
  · rw [if_pos hv]
    rw [List.getElem?_set]
    split_ifs <;>
      first
        | rfl
        | omega
        | exact (List.getElem?_eq_none (by omega)).symm
  · rw [if_neg hv]
    by_cases hv1 : v / 256 = 0
    · rw [if_pos hv1]
      rw [List.getElem?_set, List.getElem?_set, List.length_set]
      split_ifs <;>
        first
          | rfl
          | omega
          | exact (List.getElem?_eq_none (by omega)).symm
    · rw [if_neg hv1]
      rw [List.getElem?_set, List.getElem?_set, List.getElem?_set,
        List.length_set, List.length_set]
      split_ifs <;>
        first
          | rfl
          | omega
          | exact (List.getElem?_eq_none (by omega)).symm

theorem getElem?_eq_some_getD (l : List Nat) (i : Nat) (h : i < l.length) :
    l[i]? = some (l.getD i 0) := by
  rw [List.getD_eq_getElem?_getD, List.getElem?_eq_getElem h]
  rfl

theorem getD_append_left (l₁ l₂ : List Nat) (i : Nat) (h : i < l₁.length) :
    (l₁ ++ l₂).getD i 0 = l₁.getD i 0 := by
  rw [List.getD_eq_getElem?_getD, List.getElem?_append_left h,
    ← List.getD_eq_getElem?_getD]

theorem getD_append_right (l₁ l₂ : List Nat) (i : Nat) :
    (l₁ ++ l₂).getD (l₁.length + i) 0 = l₂.getD i 0 := by
  rw [List.getD_eq_getElem?_getD, List.getElem?_append_right (by omega),
    show l₁.length + i - l₁.length = i from by omega,
    ← List.getD_eq_getElem?_getD]

theorem length_foldl_setWord4 (g : Nat → Nat) :
    ∀ (W c : Nat) (buf : List Nat),
      ((List.range' c W).foldl (fun acc j => setWord4 acc j (g j)) buf).length =
        buf.length := by
  intro W
  induction W with
  | zero => intro c buf; rfl
  | succ W ih =>
    intro c buf
    rw [List.range'_succ, List.foldl_cons, ih (c + 1), length_setWord4]

/-- The trailing write cascade restores the leftover bytes: given a buffer
that already agrees with `b` below `n` and is zero from `n` on, writing the
packed value of `b`'s last `m` bytes at offset `n` restores `b` entirely. -/
theorem writeRem_restore (b : List Nat) (hb : ∀ x ∈ b, x < 256)
    (n m : Nat) (hm : 0 < m) (hm4 : m < 4) (hnm : n + m = b.length)
    (buf : List Nat) (hlen : buf.length = b.length)
    (hpre : ∀ i, i < n → buf[i]? = b[i]?)
    (hzero : ∀ i, n ≤ i → i < b.length → buf[i]? = some 0) :
    writeRem buf n
      (b.getD n 0 + (if 1 < m then 256 * b.getD (n + 1) 0 else 0) +
        (if 2 < m then 65536 * b.getD (n + 2) 0 else 0)) = b := by
  have h0 := getD_lt_256 b hb n
  have h1 := getD_lt_256 b hb (n + 1)
  have h2 := getD_lt_256 b hb (n + 2)
  have hg : ∀ i, i < b.length → b[i]? = some (b.getD i 0) :=
    fun i hi => getElem?_eq_some_getD b i hi
  have hnone : ∀ i, b.length ≤ i → (b[i]? = none ∧ buf[i]? = none) :=
    fun i hi => ⟨List.getElem?_eq_none (by omega), List.getElem?_eq_none (by omega)⟩
  have hm123 : m = 1 ∨ m = 2 ∨ m = 3 := by omega
  rcases hm123 with rfl | rfl | rfl
  · -- m = 1: only the byte at `n` is packed
    rw [if_neg (by norm_num), if_neg (by norm_num), Nat.add_zero]
    apply List.ext_getElem?
    intro i
    rw [getElem?_writeRem]
    by_cases hi0 : i = n
    · rw [if_pos ⟨hi0, by omega⟩, hi0, hg n (by omega)]
      congr 1
      omega
    · by_cases hilt : i < n
      · rw [if_neg (by omega), if_neg (by omega), if_neg (by omega)]
        exact hpre i hilt
      · rw [if_neg (by omega), if_neg (by omega), if_neg (by omega),
          (hnone i (by omega)).1, (hnone i (by omega)).2]
  · -- m = 2: bytes at `n` and `n + 1`
    rw [if_pos (by norm_num), if_neg (by norm_num), Nat.add_zero]
    apply List.ext_getElem?
    intro i
    rw [getElem?_writeRem]
    by_cases hi0 : i = n
    · rw [if_pos ⟨hi0, by omega⟩, hi0, hg n (by omega)]
      congr 1
      omega
    · by_cases hi1 : i = n + 1
      · rw [if_neg (by omega)]
        by_cases hv : b.getD n 0 + 256 * b.getD (n + 1) 0 = 0
        · rw [if_neg (by omega), if_neg (by omega), hi1,
            hzero (n + 1) (by omega) (by omega), hg (n + 1) (by omega)]
          have hb1 : b.getD (n + 1) 0 = 0 := by omega
          rw [hb1]
        · rw [if_pos ⟨hi1, by omega, hv⟩, hi1, hg (n + 1) (by omega)]
          congr 1
          omega
      · by_cases hilt : i < n
        · rw [if_neg (by omega), if_neg (by omega), if_neg (by omega)]
          exact hpre i hilt
        · rw [if_neg (by omega), if_neg (by omega), if_neg (by omega),
            (hnone i (by omega)).1, (hnone i (by omega)).2]
  · -- m = 3: bytes at `n`, `n + 1` and `n + 2`
    rw [if_pos (by norm_num), if_pos (by norm_num)]
    apply List.ext_getElem?
    intro i
    rw [getElem?_writeRem]
    by_cases hi0 : i = n
    · rw [if_pos ⟨hi0, by omega⟩, hi0, hg n (by omega)]
      congr 1
      omega
    · by_cases hi1 : i = n + 1
      · rw [if_neg (by omega)]
        by_cases hv : b.getD n 0 + 256 * b.getD (n + 1) 0 +
            65536 * b.getD (n + 2) 0 = 0
        · rw [if_neg (by omega), if_neg (by omega), hi1,
            hzero (n + 1) (by omega) (by omega), hg (n + 1) (by omega)]
          have hb1 : b.getD (n + 1) 0 = 0 := by omega
          rw [hb1]
        · rw [if_pos ⟨hi1, by omega, hv⟩, hi1, hg (n + 1) (by omega)]
          congr 1
          omega
      · by_cases hi2 : i = n + 2
        · rw [if_neg (by omega), if_neg (by omega)]
          by_cases hv : b.getD n 0 + 256 * b.getD (n + 1) 0 +
              65536 * b.getD (n + 2) 0 = 0
          · rw [if_neg (by omega), hi2,
              hzero (n + 2) (by omega) (by omega), hg (n + 2) (by omega)]
            have hb2 : b.getD (n + 2) 0 = 0 := by omega
            rw [hb2]
          · by_cases hv1 : (b.getD n 0 + 256 * b.getD (n + 1) 0 +
                65536 * b.getD (n + 2) 0) / 256 = 0
            · rw [if_neg (by omega), hi2,
                hzero (n + 2) (by omega) (by omega), hg (n + 2) (by omega)]
              have hb2 : b.getD (n + 2) 0 = 0 := by omega
              rw [hb2]
            · rw [if_pos ⟨hi2, by omega, hv, hv1⟩, hi2, hg (n + 2) (by omega)]
              congr 1
              omega
        · by_cases hilt : i < n
          · rw [if_neg (by omega), if_neg (by omega), if_neg (by omega)]
            exact hpre i hilt
          · rw [if_neg (by omega), if_neg (by omega), if_neg (by omega),
              (hnone i (by omega)).1, (hnone i (by omega)).2]

/-- Decoding the `m + 1` remainder digit characters (as the tail of
`denseArrayBufferFromStr` does) recovers the packed value. -/
theorem remDigits_decode (m v : Nat) (hm : 0 < m) (hm4 : m < 4)
    (h1 : m = 1 → v < 256) (h2 : m = 2 → v < 65536)
    (h3 : m = 3 → v < 16777216) :
    charCodeToInt ((remDigits m v).getD 0 0) +
      88 * charCodeToInt ((remDigits m v).getD 1 0) +
      (if 2 < m + 1 then 88 ^ 2 * charCodeToInt ((remDigits m v).getD 2 0) else 0) +
      (if 3 < m + 1 then 88 ^ 3 * charCodeToInt ((remDigits m v).getD 3 0) else 0) =
      v := by
  interval_cases m
  · show charCodeToInt (intToCharCode (v % 88)) +
      88 * charCodeToInt (intToCharCode (v / 88 % 88)) + 0 + 0 = v
    rw [charCodeToInt_intToCharCode _ (by omega),
      charCodeToInt_intToCharCode _ (by omega)]
    have := h1 rfl
    omega
  · show charCodeToInt (intToCharCode (v % 88)) +
      88 * charCodeToInt (intToCharCode (v / 88 % 88)) +
      88 ^ 2 * charCodeToInt (intToCharCode (v / 88 ^ 2 % 88)) + 0 = v
    rw [charCodeToInt_intToCharCode _ (by omega),
      charCodeToInt_intToCharCode _ (by omega),
      charCodeToInt_intToCharCode _ (by omega),
      show (88 : Nat) ^ 2 = 7744 from by norm_num]
    have := h2 rfl
    omega
  · show charCodeToInt (intToCharCode (v % 88)) +
      88 * charCodeToInt (intToCharCode (v / 88 % 88)) +
      88 ^ 2 * charCodeToInt (intToCharCode (v / 88 ^ 2 % 88)) +
      88 ^ 3 * charCodeToInt (intToCharCode (v / 88 ^ 3 % 88)) = v
    rw [charCodeToInt_intToCharCode _ (by omega),
      charCodeToInt_intToCharCode _ (by omega),
      charCodeToInt_intToCharCode _ (by omega),
      charCodeToInt_intToCharCode _ (by omega),
      show (88 : Nat) ^ 2 = 7744 from by norm_num,
      show (88 : Nat) ^ 3 = 681472 from by norm_num]
    have := h3 rfl
    omega

/-- Dense path of the sub-codec: decoding the dense encoding of the first `e`
bytes into a fresh zero buffer reproduces those bytes and leaves the rest
zero.  `e` is a trim length as produced by `analyzeArrayBuffer`: a non-word
remainder only happens when nothing was trimmed (`e % 4 ≠ 0 → e = b.length`). -/
theorem denseFromStr_denseToStr (b : List Nat) (hb : ∀ x ∈ b, x < 256)
    (e : Nat) (he : e ≤ b.length) (hrem : e % 4 ≠ 0 → e = b.length) :
    denseArrayBufferFromStr (denseArrayBufferToStr b e)
      (List.replicate b.length 0) =
      b.take e ++ List.replicate (b.length - e) 0 := by
  have hW4 : (e - e % 4) / 4 = e / 4 := by omega
  have hsplit : denseArrayBufferToStr b e =
      ((List.range' 0 (e / 4)).flatMap fun i => word5 (w32 b i)) ++
        (if e % 4 = 0 then [] else
          remDigits (e % 4)
            (b.getD (e - e % 4) 0 +
              (if 1 < e % 4 then 256 * b.getD (e - e % 4 + 1) 0 else 0) +
              (if 2 < e % 4 then 65536 * b.getD (e - e % 4 + 2) 0 else 0))) := by
    simp only [denseArrayBufferToStr]
    rw [hW4, List.range_eq_range']
  have hlenbody :
      ((List.range' 0 (e / 4)).flatMap fun i => word5 (w32 b i)).length =
        5 * (e / 4) :=
    length_flatMap_word5 (w32 b) (e / 4) 0
  have hword : ∀ (R : List Nat) (j : Nat), j < e / 4 →
      word32FromDigits
        (((List.range' 0 (e / 4)).flatMap fun i => word5 (w32 b i)) ++ R)
        (5 * j) = w32 b j := by
    intro R j hj
    apply word32FromDigits_eq_of _ _ _ (w32_lt b hb j)
    intro k hk
    rw [getD_append_left _ _ _ (by omega)]
    have := getD_flatMap_word5 (w32 b) j (e / 4) 0 k hj hk
    simpa using this
  by_cases hm0 : e % 4 = 0
  · -- no leftover bytes: the whole encoding is full words
    have he4 : 4 * (e / 4) = e := by omega
    rw [hsplit, if_pos hm0, List.append_nil]
    simp only [denseArrayBufferFromStr]
    rw [hlenbody,
      show 5 * (e / 4) % 5 = 0 from by omega,
      if_pos rfl,
      show 5 * (e / 4) - 0 = 5 * (e / 4) from by omega,
      show 5 * (e / 4) / 5 = e / 4 from by omega,
      List.range_eq_range']
    apply List.ext_getElem?
    intro i
    rw [foldl_setWord4_getElem?]
    by_cases hiL : i < b.length
    · by_cases hi4 : i < 4 * (e / 4)
      · rw [if_pos ⟨by omega, by omega, by rw [List.length_replicate]; omega⟩]
        have hwd := hword [] (i / 4) (by omega)
        rw [List.append_nil] at hwd
        rw [hwd, w32_byte b hb (i / 4) (i % 4) (Nat.mod_lt _ (by norm_num)),
          show 4 * (i / 4) + i % 4 = i from by omega,
          List.getElem?_append_left (by rw [List.length_take]; omega),
          List.getElem?_take, if_pos (by omega),
          getElem?_eq_some_getD b i hiL]
      · rw [if_neg (by omega), List.getElem?_replicate, if_pos hiL,
          List.getElem?_append_right (by rw [List.length_take]; omega),
          List.getElem?_replicate, if_pos (by rw [List.length_take]; omega)]
    · rw [if_neg (by rw [List.length_replicate]; omega),
        List.getElem?_replicate, if_neg (by omega),
        List.getElem?_eq_none (by
          rw [List.length_append, List.length_take, List.length_replicate]
          omega)]
  · -- 1–3 leftover bytes: only possible when nothing was trimmed
    have heL : e = b.length := hrem hm0
    have hm4 : e % 4 < 4 := Nat.mod_lt _ (by norm_num)
    rw [hsplit, if_neg hm0]
    simp only [denseArrayBufferFromStr]
    rw [List.length_append, hlenbody,
      length_remDigits _ _ (by omega) hm4,
      show (5 * (e / 4) + (e % 4 + 1)) % 5 = e % 4 + 1 from by omega,
      if_neg (by omega),
      show 5 * (e / 4) + (e % 4 + 1) - (e % 4 + 1) = 5 * (e / 4) from by omega,
      show 5 * (e / 4) / 5 = e / 4 from by omega,
      List.range_eq_range',
      show b.take e ++ List.replicate (b.length - e) 0 = b from by
        rw [show b.length - e = 0 from by omega, List.replicate_zero,
          List.append_nil, heL, List.take_length]]
    have haux : ∀ k,
        (((List.range' 0 (e / 4)).flatMap fun i => word5 (w32 b i)) ++
          remDigits (e % 4)
            (b.getD (e - e % 4) 0 +
              (if 1 < e % 4 then 256 * b.getD (e - e % 4 + 1) 0 else 0) +
              (if 2 < e % 4 then 65536 * b.getD (e - e % 4 + 2) 0 else 0))).getD
          (5 * (e / 4) + k) 0 =
        (remDigits (e % 4)
            (b.getD (e - e % 4) 0 +
              (if 1 < e % 4 then 256 * b.getD (e - e % 4 + 1) 0 else 0) +
              (if 2 < e % 4 then 65536 * b.getD (e - e % 4 + 2) 0 else 0))).getD
          k 0 := by
      intro k
      rw [← hlenbody]
      exact getD_append_right _ _ k
    have haux0 := haux 0
    simp only [Nat.add_zero] at haux0
    have hb0 := getD_lt_256 b hb (e - e % 4)
    have hb1 := getD_lt_256 b hb (e - e % 4 + 1)
    have hb2 := getD_lt_256 b hb (e - e % 4 + 2)
    have hVDEC :
        charCodeToInt
            ((((List.range' 0 (e / 4)).flatMap fun i => word5 (w32 b i)) ++
              remDigits (e % 4)
                (b.getD (e - e % 4) 0 +
                  (if 1 < e % 4 then 256 * b.getD (e - e % 4 + 1) 0 else 0) +
                  (if 2 < e % 4 then 65536 * b.getD (e - e % 4 + 2) 0 else 0))).getD
              (5 * (e / 4)) 0) +
          88 * charCodeToInt
            ((((List.range' 0 (e / 4)).flatMap fun i => word5 (w32 b i)) ++
              remDigits (e % 4)
                (b.getD (e - e % 4) 0 +
                  (if 1 < e % 4 then 256 * b.getD (e - e % 4 + 1) 0 else 0) +
                  (if 2 < e % 4 then 65536 * b.getD (e - e % 4 + 2) 0 else 0))).getD
              (5 * (e / 4) + 1) 0) +
          (if 2 < e % 4 + 1 then
            88 ^ 2 * charCodeToInt
              ((((List.range' 0 (e / 4)).flatMap fun i => word5 (w32 b i)) ++
                remDigits (e % 4)
                  (b.getD (e - e % 4) 0 +
                    (if 1 < e % 4 then 256 * b.getD (e - e % 4 + 1) 0 else 0) +
                    (if 2 < e % 4 then 65536 * b.getD (e - e % 4 + 2) 0 else 0))).getD
                (5 * (e / 4) + 2) 0)
          else 0) +
          (if 3 < e % 4 + 1 then
            88 ^ 3 * charCodeToInt
              ((((List.range' 0 (e / 4)).flatMap fun i => word5 (w32 b i)) ++
                remDigits (e % 4)
                  (b.getD (e - e % 4) 0 +
                    (if 1 < e % 4 then 256 * b.getD (e - e % 4 + 1) 0 else 0) +
                    (if 2 < e % 4 then 65536 * b.getD (e - e % 4 + 2) 0 else 0))).getD
                (5 * (e / 4) + 3) 0)
          else 0) =
        b.getD (e - e % 4) 0 +
          (if 1 < e % 4 then 256 * b.getD (e - e % 4 + 1) 0 else 0) +
          (if 2 < e % 4 then 65536 * b.getD (e - e % 4 + 2) 0 else 0) := by
      rw [haux0, haux 1, haux 2, haux 3]
      exact remDigits_decode (e % 4) _ (by omega) hm4
        (fun h' => by split_ifs <;> omega)
        (fun h' => by split_ifs <;> omega)
        (fun h' => by split_ifs <;> omega)
    rw [hVDEC, show 4 * (e / 4) = e - e % 4 from by omega]
    refine writeRem_restore b hb (e - e % 4) (e % 4) (by omega) hm4 (by omega) _
      ?_ ?_ ?_
    · rw [length_foldl_setWord4, List.length_replicate]
    · intro i hi
      rw [foldl_setWord4_getElem?,
        if_pos ⟨by omega, by omega, by rw [List.length_replicate]; omega⟩]
      have hwd := hword
        (remDigits (e % 4)
          (b.getD (e - e % 4) 0 +
            (if 1 < e % 4 then 256 * b.getD (e - e % 4 + 1) 0 else 0) +
            (if 2 < e % 4 then 65536 * b.getD (e - e % 4 + 2) 0 else 0)))
        (i / 4) (by omega)
      rw [hwd, w32_byte b hb (i / 4) (i % 4) (Nat.mod_lt _ (by norm_num)),
        show 4 * (i / 4) + i % 4 = i from by omega,
        getElem?_eq_some_getD b i (by omega)]
    · intro i h1 h2
      rw [foldl_setWord4_getElem?, if_neg (by omega),
        List.getElem?_replicate, if_pos (by omega)]

theorem toUint32_int32At (b : List Nat) (hb : ∀ x ∈ b, x < 256) (i : Nat) :
    toUint32 (int32At b i) = w32 b i := by
  have := w32_lt b hb i
  unfold toUint32 int32At
  split <;> omega

theorem getD_of_drop_cons (s : List Nat) (ptr x : Nat) (xs : List Nat)
    (h : s.drop ptr = x :: xs) : s.getD ptr 0 = x := by
  rw [List.getD_eq_getElem?_getD, ← List.head?_drop, h]
  rfl

theorem drop_add_of_drop (s : List Nat) (ptr n : Nat) (t : List Nat)
    (h : s.drop ptr = t) : s.drop (ptr + n) = t.drop n := by
  rw [← h, ← List.drop_drop]

theorem length_serializeSize (n : Nat) :
    (serializeSize n).length = (sizeDigitsF (n + 1) n).length + 1 := by
  simp [serializeSize]

theorem length_le_of_drop_append (s : List Nat) (p : Nat) (y z : List Nat)
    (h : s.drop p = y ++ z) : y.length ≤ s.length := by
  have h1 : (s.drop p).length = s.length - p := List.length_drop p s
  have h2 : (y ++ z).length = y.length + z.length := List.length_append y z
  rw [h] at h1
  omega

theorem deserializeSizeF_shift (fuel : Nat) (s : List Nat) (ptr : Nat) :
    deserializeSizeF fuel s ptr =
      (deserializeSizeF fuel (s.drop ptr) 0).map (fun p => (p.1, ptr + p.2)) := by
  unfold deserializeSizeF
  rw [dsLoopF_eq_dsLoopL, dsLoopF_eq_dsLoopL, Option.map_map,
    show (s.drop ptr).drop (0 + 1) = s.drop (ptr + 1) from by
      rw [List.drop_drop],
    show (s.drop ptr)[0]? = s[ptr]? from by
      rw [← List.head?_drop, ← List.head?_drop, List.drop_drop, Nat.add_zero]]
  congr 1
  funext p
  simp [Function.comp]
  omega

/-- Decoding an encoded size numeral at cursor 0, with arbitrary following
content, yields the encoded value and stops one past the separator; any fuel
beyond the digit count suffices. -/
theorem deserializeSizeF_encode (n : Nat) (rest : List Nat) (fuel : Nat)
    (hfuel : (sizeDigitsF (n + 1) n).length < fuel) :
    deserializeSizeF fuel (serializeSize n ++ rest) 0 =
      some (some n, (serializeSize n).length) := by
  have hlt : ∀ x ∈ sizeDigitsF (n + 1) n, x < 88 := sizeDigitsF_lt n
  have hval : valueOfDigits (sizeDigitsF (n + 1) n) = n := valueOfDigits_sizeDigitsF n
  unfold deserializeSizeF
  rcases hds : sizeDigitsF (n + 1) n with _ | ⟨d, ds⟩
  · exact absurd hds (sizeDigitsF_ne_nil n)
  rw [hds] at hlt hval hfuel
  have hd : d < 88 := hlt d (by simp)
  have hs : serializeSize n ++ rest =
      intToCharCode d :: (ds.map intToCharCode ++ SEPARATORCHARCODE :: rest) := by
    unfold serializeSize
    rw [hds]
    simp
  have hlen : (serializeSize n).length = ds.length + 2 := by
    unfold serializeSize
    rw [hds]
    simp
  rw [hs, hlen]
  simp only [List.getElem?_cons_zero, Nat.zero_add]
  rw [show digitOfRead (some (intToCharCode d)) = some d from
    charCodeToIntU_intToCharCode d hd]
  rw [dsLoopF_eq_dsLoopL]
  have hdrop : (intToCharCode d ::
      (ds.map intToCharCode ++ SEPARATORCHARCODE :: rest)).drop 1 =
      ds.map intToCharCode ++ SEPARATORCHARCODE :: rest := rfl
  rw [hdrop, dsLoopL_digits ds (fun x hx => hlt x (by simp [hx])) rest d
    NUMSAFECHARS fuel (by simp at hfuel; omega)]
  have hval' : d + valueOfDigits ds * NUMSAFECHARS = n := hval
  rw [Option.map_some']
  rw [show (1 : Nat) + (ds.length + 1) = ds.length + 2 from by omega, hval']

theorem int32At_eq_zero_iff (b : List Nat) (hb : ∀ x ∈ b, x < 256) (i : Nat) :
    int32At b i = 0 ↔ w32 b i = 0 := by
  have := w32_lt b hb i
  unfold int32At
  split <;> omega

/-- One 32-bit element of the sparse decoding switch consumes exactly the
bytes of the corresponding `sparseItem` and stores the element's unsigned
word (skipping the store for a zero element). -/
theorem sparseStep32_one (b : List Nat) (hb : ∀ x ∈ b, x < 256) (s : List Nat)
    (i ptr : Nat) (buf rest : List Nat)
    (hdrop : s.drop ptr = sparseItem (int32At b i) ++ rest) :
    sparseStep32 s i (ptr, buf) =
      some (ptr + (sparseItem (int32At b i)).length,
        if w32 b i = 0 then buf else setWord4 buf i (w32 b i)) := by
  have hw32 := w32_lt b hb i
  have hsign : int32At b i = (w32 b i : Int) ∨
      int32At b i = (w32 b i : Int) - 2 ^ 32 := by
    unfold int32At
    split
    · exact Or.inl rfl
    · exact Or.inr rfl
  by_cases h0 : int32At b i = 0
  · have hitem : sparseItem (int32At b i) = [C_ZERO] := by
      unfold sparseItem
      rw [if_pos h0]
    have hdropc : s.drop ptr = C_ZERO :: rest := by
      rw [hdrop, hitem]
      rfl
    have htag : s.getD ptr 0 = C_ZERO := getD_of_drop_cons _ _ _ _ hdropc
    simp only [sparseStep32]
    rw [htag, show charCodeToInt C_ZERO = I_ZERO from rfl, if_pos rfl, hitem,
      if_pos ((int32At_eq_zero_iff b hb i).mp h0)]
    rfl
  · have hw0 : ¬ w32 b i = 0 := fun h => h0 ((int32At_eq_zero_iff b hb i).mpr h)
    by_cases h1 : 88 ≤ int32At b i
    · -- large positive: tag + numeral
      have hpos : int32At b i = (w32 b i : Int) := by
        rcases hsign with h | h
        · exact h
        · omega
      have hitem : sparseItem (int32At b i) =
          C_INTEGER_LARGE_POS :: serializeSize (int32At b i).toNat := by
        unfold sparseItem
        rw [if_neg h0, if_pos h1]
      have hdropc : s.drop ptr =
          C_INTEGER_LARGE_POS :: (serializeSize (int32At b i).toNat ++ rest) := by
        rw [hdrop, hitem]
        rfl
      have htag : s.getD ptr 0 = C_INTEGER_LARGE_POS :=
        getD_of_drop_cons _ _ _ _ hdropc
      have hdrop2 : s.drop (ptr + 1) = serializeSize (int32At b i).toNat ++ rest := by
        have := drop_add_of_drop s ptr 1 _ hdropc
        simpa using this
      have hfuel : (sizeDigitsF ((int32At b i).toNat + 1) (int32At b i).toNat).length
          < s.length + 1 := by
        have hle := length_le_of_drop_append s (ptr + 1) _ _ hdrop2
        rw [length_serializeSize] at hle
        omega
      simp only [sparseStep32]
      rw [htag, show charCodeToInt C_INTEGER_LARGE_POS = I_INTEGER_LARGE_POS from rfl,
        if_neg (by decide), if_neg (by decide), if_neg (by decide), if_pos rfl,
        deserializeSizeF_shift, hdrop2,
        deserializeSizeF_encode _ _ _ hfuel, Option.map_some']
      show some (ptr + 1 + (serializeSize (int32At b i).toNat).length,
          setWord4 buf i (toUint32 ((int32At b i).toNat : Int))) = _
      rw [if_neg hw0, hitem, List.length_cons,
        Int.toNat_of_nonneg (by omega), toUint32_int32At b hb i]
      rw [show ptr + 1 + (serializeSize (int32At b i).toNat).length =
        ptr + ((serializeSize (int32At b i).toNat).length + 1) from by omega]
    · by_cases h2 : 0 < int32At b i
      · -- small positive: tag + one digit character
        have hpos : int32At b i = (w32 b i : Int) := by
          rcases hsign with h | h
          · exact h
          · omega
        have hitem : sparseItem (int32At b i) =
            [C_INTEGER_SMALL_POS, intToCharCode (int32At b i).toNat] := by
          unfold sparseItem
          rw [if_neg h0, if_neg h1, if_pos h2]
        have hdropc : s.drop ptr = C_INTEGER_SMALL_POS ::
            (intToCharCode (int32At b i).toNat :: rest) := by
          rw [hdrop, hitem]
          rfl
        have htag : s.getD ptr 0 = C_INTEGER_SMALL_POS :=
          getD_of_drop_cons _ _ _ _ hdropc
        have hdig : s.getD (ptr + 1) 0 = intToCharCode (int32At b i).toNat := by
          apply getD_of_drop_cons s (ptr + 1) _ rest
          have := drop_add_of_drop s ptr 1 _ hdropc
          simpa using this
        simp only [sparseStep32]
        rw [htag, show charCodeToInt C_INTEGER_SMALL_POS = I_INTEGER_SMALL_POS from rfl,
          if_neg (by decide), if_pos rfl, hdig,
          charCodeToInt_intToCharCode _ (by omega)]
        rw [show (((int32At b i).toNat : Int)) = int32At b i from
          Int.toNat_of_nonneg (by omega), toUint32_int32At b hb i,
          if_neg hw0, hitem]
        rfl
      · by_cases h3 : -88 < int32At b i
        · -- small negative: tag + one digit character of the magnitude
          have hneg : int32At b i = (w32 b i : Int) - 2 ^ 32 := by
            rcases hsign with h | h
            · omega
            · exact h
          have hitem : sparseItem (int32At b i) =
              [C_INTEGER_SMALL_NEG, intToCharCode (-int32At b i).toNat] := by
            unfold sparseItem
            rw [if_neg h0, if_neg h1, if_neg h2, if_pos h3]
          have hdropc : s.drop ptr = C_INTEGER_SMALL_NEG ::
              (intToCharCode (-int32At b i).toNat :: rest) := by
            rw [hdrop, hitem]
            rfl
          have htag : s.getD ptr 0 = C_INTEGER_SMALL_NEG :=
            getD_of_drop_cons _ _ _ _ hdropc
          have hdig : s.getD (ptr + 1) 0 = intToCharCode (-int32At b i).toNat := by
            apply getD_of_drop_cons s (ptr + 1) _ rest
            have := drop_add_of_drop s ptr 1 _ hdropc
            simpa using this
          simp only [sparseStep32]
          rw [htag,
            show charCodeToInt C_INTEGER_SMALL_NEG = I_INTEGER_SMALL_NEG from rfl,
            if_neg (by decide), if_neg (by decide), if_pos rfl, hdig,
            charCodeToInt_intToCharCode _ (by omega)]
          rw [show -((((-int32At b i).toNat : Nat) : Int)) = int32At b i from by omega,
            toUint32_int32At b hb i, if_neg hw0, hitem]
          rfl
        · -- large negative: tag + numeral of the magnitude
          have hneg : int32At b i = (w32 b i : Int) - 2 ^ 32 := by
            rcases hsign with h | h
            · omega
            · exact h
          have hitem : sparseItem (int32At b i) =
              C_INTEGER_LARGE_NEG :: serializeSize (-int32At b i).toNat := by
            unfold sparseItem
            rw [if_neg h0, if_neg h1, if_neg h2, if_neg h3]
          have hdropc : s.drop ptr = C_INTEGER_LARGE_NEG ::
              (serializeSize (-int32At b i).toNat ++ rest) := by
            rw [hdrop, hitem]
            rfl
          have htag : s.getD ptr 0 = C_INTEGER_LARGE_NEG :=
            getD_of_drop_cons _ _ _ _ hdropc
          have hdrop2 : s.drop (ptr + 1) =
              serializeSize (-int32At b i).toNat ++ rest := by
            have := drop_add_of_drop s ptr 1 _ hdropc
            simpa using this
          have hfuel : (sizeDigitsF ((-int32At b i).toNat + 1)
              (-int32At b i).toNat).length < s.length + 1 := by
            have hle := length_le_of_drop_append s (ptr + 1) _ _ hdrop2
            rw [length_serializeSize] at hle
            omega
          simp only [sparseStep32]
          rw [htag,
            show charCodeToInt C_INTEGER_LARGE_NEG = I_INTEGER_LARGE_NEG from rfl,
            if_neg (by decide), if_neg (by decide), if_neg (by decide),
            if_neg (by decide), if_pos rfl,
            deserializeSizeF_shift, hdrop2,
            deserializeSizeF_encode _ _ _ hfuel, Option.map_some']
          show some (ptr + 1 + (serializeSize (-int32At b i).toNat).length,
              setWord4 buf i (toUint32 (-(((-int32At b i).toNat : Nat) : Int)))) = _
          rw [show -((((-int32At b i).toNat : Nat) : Int)) = int32At b i from by omega,
            toUint32_int32At b hb i, if_neg hw0, hitem, List.length_cons,
            show ptr + 1 + (serializeSize (-int32At b i).toNat).length =
              ptr + ((serializeSize (-int32At b i).toNat).length + 1) from by omega]

theorem int8At_eq_zero_iff (b : List Nat) (hb : ∀ x ∈ b, x < 256) (pos : Nat) :
    int8At b pos = 0 ↔ b.getD pos 0 = 0 := by
  have := getD_lt_256 b hb pos
  unfold int8At
  split <;> omega

theorem toUint8_int8At (b : List Nat) (hb : ∀ x ∈ b, x < 256) (pos : Nat) :
    toUint8 (int8At b pos) = b.getD pos 0 := by
  have := getD_lt_256 b hb pos
  unfold toUint8 int8At
  split <;> omega

/-- One trailing-byte element of the sparse decoding switch consumes exactly
the bytes of the corresponding `sparseItem` and stores the byte (skipping the
store for a zero byte). -/
theorem sparseStep8_one (b : List Nat) (hb : ∀ x ∈ b, x < 256) (s : List Nat)
    (pos ptr : Nat) (buf rest : List Nat)
    (hdrop : s.drop ptr = sparseItem (int8At b pos) ++ rest) :
    sparseStep8 s pos (ptr, buf) =
      some (ptr + (sparseItem (int8At b pos)).length,
        if b.getD pos 0 = 0 then buf else buf.set pos (b.getD pos 0)) := by
  have hu := getD_lt_256 b hb pos
  have hsign : int8At b pos = (b.getD pos 0 : Int) ∨
      int8At b pos = (b.getD pos 0 : Int) - 256 := by
    unfold int8At
    split
    · exact Or.inl rfl
    · exact Or.inr rfl
  by_cases h0 : int8At b pos = 0
  · have hitem : sparseItem (int8At b pos) = [C_ZERO] := by
      unfold sparseItem
      rw [if_pos h0]
    have hdropc : s.drop ptr = C_ZERO :: rest := by
      rw [hdrop, hitem]
      rfl
    have htag : s.getD ptr 0 = C_ZERO := getD_of_drop_cons _ _ _ _ hdropc
    simp only [sparseStep8]
    rw [htag, show charCodeToInt C_ZERO = I_ZERO from rfl, if_pos rfl, hitem,
      if_pos ((int8At_eq_zero_iff b hb pos).mp h0)]
    rfl
  · have hw0 : ¬ b.getD pos 0 = 0 := fun h => h0 ((int8At_eq_zero_iff b hb pos).mpr h)
    by_cases h1 : 88 ≤ int8At b pos
    · have hitem : sparseItem (int8At b pos) =
          C_INTEGER_LARGE_POS :: serializeSize (int8At b pos).toNat := by
        unfold sparseItem
        rw [if_neg h0, if_pos h1]
      have hdropc : s.drop ptr =
          C_INTEGER_LARGE_POS :: (serializeSize (int8At b pos).toNat ++ rest) := by
        rw [hdrop, hitem]
        rfl
      have htag : s.getD ptr 0 = C_INTEGER_LARGE_POS :=
        getD_of_drop_cons _ _ _ _ hdropc
      have hdrop2 : s.drop (ptr + 1) = serializeSize (int8At b pos).toNat ++ rest := by
        have := drop_add_of_drop s ptr 1 _ hdropc
        simpa using this
      have hfuel : (sizeDigitsF ((int8At b pos).toNat + 1) (int8At b pos).toNat).length
          < s.length + 1 := by
        have hle := length_le_of_drop_append s (ptr + 1) _ _ hdrop2
        rw [length_serializeSize] at hle
        omega
      simp only [sparseStep8]
      rw [htag, show charCodeToInt C_INTEGER_LARGE_POS = I_INTEGER_LARGE_POS from rfl,
        if_neg (by decide), if_neg (by decide), if_neg (by decide), if_pos rfl,
        deserializeSizeF_shift, hdrop2,
        deserializeSizeF_encode _ _ _ hfuel, Option.map_some']
      show some (ptr + 1 + (serializeSize (int8At b pos).toNat).length,
          buf.set pos (toUint8 ((int8At b pos).toNat : Int))) = _
      rw [Int.toNat_of_nonneg (by omega), toUint8_int8At b hb pos,
        if_neg hw0, hitem, List.length_cons,
        show ptr + 1 + (serializeSize (int8At b pos).toNat).length =
          ptr + ((serializeSize (int8At b pos).toNat).length + 1) from by omega]
    · by_cases h2 : 0 < int8At b pos
      · have hitem : sparseItem (int8At b pos) =
            [C_INTEGER_SMALL_POS, intToCharCode (int8At b pos).toNat] := by
          unfold sparseItem
          rw [if_neg h0, if_neg h1, if_pos h2]
        have hdropc : s.drop ptr = C_INTEGER_SMALL_POS ::
            (intToCharCode (int8At b pos).toNat :: rest) := by
          rw [hdrop, hitem]
          rfl
        have htag : s.getD ptr 0 = C_INTEGER_SMALL_POS :=
          getD_of_drop_cons _ _ _ _ hdropc
        have hdig : s.getD (ptr + 1) 0 = intToCharCode (int8At b pos).toNat := by
          apply getD_of_drop_cons s (ptr + 1) _ rest
          have := drop_add_of_drop s ptr 1 _ hdropc
          simpa using this
        simp only [sparseStep8]
        rw [htag, show charCodeToInt C_INTEGER_SMALL_POS = I_INTEGER_SMALL_POS from rfl,
          if_neg (by decide), if_pos rfl, hdig,
          charCodeToInt_intToCharCode _ (by omega)]
        rw [show (((int8At b pos).toNat : Nat) : Int) = int8At b pos from
          Int.toNat_of_nonneg (by omega), toUint8_int8At b hb pos,
          if_neg hw0, hitem]
        rfl
      · by_cases h3 : -88 < int8At b pos
        · have hitem : sparseItem (int8At b pos) =
              [C_INTEGER_SMALL_NEG, intToCharCode (-int8At b pos).toNat] := by
            unfold sparseItem
            rw [if_neg h0, if_neg h1, if_neg h2, if_pos h3]
          have hdropc : s.drop ptr = C_INTEGER_SMALL_NEG ::
              (intToCharCode (-int8At b pos).toNat :: rest) := by
            rw [hdrop, hitem]
            rfl
          have htag : s.getD ptr 0 = C_INTEGER_SMALL_NEG :=
            getD_of_drop_cons _ _ _ _ hdropc
          have hdig : s.getD (ptr + 1) 0 = intToCharCode (-int8At b pos).toNat := by
            apply getD_of_drop_cons s (ptr + 1) _ rest
            have := drop_add_of_drop s ptr 1 _ hdropc
            simpa using this
          simp only [sparseStep8]
          rw [htag,
            show charCodeToInt C_INTEGER_SMALL_NEG = I_INTEGER_SMALL_NEG from rfl,
            if_neg (by decide), if_neg (by decide), if_pos rfl, hdig,
            charCodeToInt_intToCharCode _ (by omega)]
          have hval : toUint8 (-(((-int8At b pos).toNat : Nat) : Int)) =
              b.getD pos 0 := by
            rw [show -((((-int8At b pos).toNat : Nat)) : Int) = int8At b pos from
              by omega]
            exact toUint8_int8At b hb pos
          rw [hval, if_neg hw0, hitem]
          rfl
        · have hitem : sparseItem (int8At b pos) =
              C_INTEGER_LARGE_NEG :: serializeSize (-int8At b pos).toNat := by
            unfold sparseItem
            rw [if_neg h0, if_neg h1, if_neg h2, if_neg h3]
          have hdropc : s.drop ptr = C_INTEGER_LARGE_NEG ::
              (serializeSize (-int8At b pos).toNat ++ rest) := by
            rw [hdrop, hitem]
            rfl
          have htag : s.getD ptr 0 = C_INTEGER_LARGE_NEG :=
            getD_of_drop_cons _ _ _ _ hdropc
          have hdrop2 : s.drop (ptr + 1) =
              serializeSize (-int8At b pos).toNat ++ rest := by
            have := drop_add_of_drop s ptr 1 _ hdropc
            simpa using this
          have hfuel : (sizeDigitsF ((-int8At b pos).toNat + 1)
              (-int8At b pos).toNat).length < s.length + 1 := by
            have hle := length_le_of_drop_append s (ptr + 1) _ _ hdrop2
            rw [length_serializeSize] at hle
            omega
          simp only [sparseStep8]
          rw [htag,
            show charCodeToInt C_INTEGER_LARGE_NEG = I_INTEGER_LARGE_NEG from rfl,
            if_neg (by decide), if_neg (by decide), if_neg (by decide),
            if_neg (by decide), if_pos rfl,
            deserializeSizeF_shift, hdrop2,
            deserializeSizeF_encode _ _ _ hfuel, Option.map_some']
          show some (ptr + 1 + (serializeSize (-int8At b pos).toNat).length,
              buf.set pos (toUint8 (-(((-int8At b pos).toNat : Nat) : Int)))) = _
          have hval : toUint8 (-(((-int8At b pos).toNat : Nat) : Int)) =
              b.getD pos 0 := by
            rw [show -((((-int8At b pos).toNat : Nat)) : Int) = int8At b pos from
              by omega]
            exact toUint8_int8At b hb pos
          rw [hval, if_neg hw0, hitem, List.length_cons,
            show ptr + 1 + (serializeSize (-int8At b pos).toNat).length =
              ptr + ((serializeSize (-int8At b pos).toNat).length + 1) from by omega]

/-- Decoding the 32-bit item stream writes back the words of `b` over the
zeroed region of the buffer and consumes exactly the stream's characters. -/
theorem sparse32_fold (b : List Nat) (hb : ∀ x ∈ b, x < 256) (s : List Nat) :
    ∀ (W c ptr : Nat) (buf post : List Nat),
      s.drop ptr =
        ((List.range' c W).flatMap fun i => sparseItem (int32At b i)) ++ post →
      (∀ t, 4 * c ≤ t → t < buf.length → buf[t]? = some 0) →
      ∃ buf',
        (List.range' c W).foldlM (fun st i => sparseStep32 s i st) (ptr, buf) =
          some (ptr +
            ((List.range' c W).flatMap fun i => sparseItem (int32At b i)).length,
            buf') ∧
        buf'.length = buf.length ∧
        ∀ t, buf'[t]? =
          if 4 * c ≤ t ∧ t < 4 * (c + W) ∧ t < buf.length then some (b.getD t 0)
          else buf[t]? := by
  intro W
  induction W with
  | zero =>
    intro c ptr buf post hdrop hzero
    refine ⟨buf, by simp [List.foldlM_nil], rfl, ?_⟩
    intro t
    rw [if_neg (by omega)]
  | succ W ih =>
    intro c ptr buf post hdrop hzero
    rw [List.range'_succ] at hdrop ⊢
    rw [List.flatMap_cons, List.append_assoc] at hdrop
    have hdropnext : s.drop (ptr + (sparseItem (int32At b c)).length) =
        ((List.range' (c + 1) W).flatMap fun i => sparseItem (int32At b i)) ++
          post := by
      have h := drop_add_of_drop s ptr (sparseItem (int32At b c)).length _ hdrop
      rw [List.drop_left] at h
      exact h
    rw [List.foldlM_cons, sparseStep32_one b hb s c ptr buf _ hdrop]
    by_cases hzw : w32 b c = 0
    · rw [if_pos hzw]
      have hz0 : ∀ r, r < 4 → b.getD (4 * c + r) 0 = 0 := w32_eq_zero b c hzw
      obtain ⟨buf', hfold, hlen', hpt⟩ := ih (c + 1)
        (ptr + (sparseItem (int32At b c)).length) buf post hdropnext
        (fun t ht hl => hzero t (by omega) hl)
      refine ⟨buf', ?_, hlen', ?_⟩
      · show (List.range' (c + 1) W).foldlM (fun st i => sparseStep32 s i st)
          (ptr + (sparseItem (int32At b c)).length, buf) = _
        rw [hfold, List.flatMap_cons, List.length_append]
        rw [show ptr + ((sparseItem (int32At b c)).length +
          (((List.range' (c + 1) W).flatMap fun i =>
            sparseItem (int32At b i)).length)) =
          ptr + (sparseItem (int32At b c)).length +
          (((List.range' (c + 1) W).flatMap fun i =>
            sparseItem (int32At b i)).length) from by omega]
      · intro t
        rw [hpt t]
        by_cases hA : 4 * (c + 1) ≤ t ∧ t < 4 * (c + 1 + W) ∧ t < buf.length
        · rw [if_pos hA, if_pos (by omega)]
        · rw [if_neg hA]
          by_cases hB : 4 * c ≤ t ∧ t < 4 * (c + (W + 1)) ∧ t < buf.length
          · rw [if_pos hB, hzero t (by omega) (by omega),
              show b.getD t 0 = 0 from by
                have := hz0 (t - 4 * c) (by omega)
                rw [show 4 * c + (t - 4 * c) = t from by omega] at this
                exact this]
          · rw [if_neg hB]
    · rw [if_neg hzw]
      have hlen₂ : (setWord4 buf c (w32 b c)).length = buf.length :=
        length_setWord4 buf c (w32 b c)
      have hzero₂ : ∀ t, 4 * (c + 1) ≤ t → t < (setWord4 buf c (w32 b c)).length →
          (setWord4 buf c (w32 b c))[t]? = some 0 := by
        intro t ht hl
        rw [getElem?_setWord4, if_neg (by omega)]
        exact hzero t (by omega) (by omega)
      obtain ⟨buf', hfold, hlen', hpt⟩ := ih (c + 1)
        (ptr + (sparseItem (int32At b c)).length) (setWord4 buf c (w32 b c))
        post hdropnext hzero₂
      refine ⟨buf', ?_, by rw [hlen', hlen₂], ?_⟩
      · show (List.range' (c + 1) W).foldlM (fun st i => sparseStep32 s i st)
          (ptr + (sparseItem (int32At b c)).length, setWord4 buf c (w32 b c)) = _
        rw [hfold, List.flatMap_cons, List.length_append]
        rw [show ptr + ((sparseItem (int32At b c)).length +
          (((List.range' (c + 1) W).flatMap fun i =>
            sparseItem (int32At b i)).length)) =
          ptr + (sparseItem (int32At b c)).length +
          (((List.range' (c + 1) W).flatMap fun i =>
            sparseItem (int32At b i)).length) from by omega]
      · intro t
        rw [hpt t, hlen₂, getElem?_setWord4]
        by_cases hA : 4 * (c + 1) ≤ t ∧ t < 4 * (c + 1 + W) ∧ t < buf.length
        · rw [if_pos hA, if_pos (by omega)]
        · rw [if_neg hA]
          by_cases hC : 4 * c ≤ t ∧ t < 4 * c + 4 ∧ t < buf.length
          · rw [if_pos hC, if_pos (by omega)]
            have := w32_byte b hb c (t - 4 * c) (by omega)
            rw [show 4 * c + (t - 4 * c) = t from by omega] at this
            rw [this]
          · rw [if_neg hC, if_neg (by omega)]

/-- Decoding the trailing-byte item stream writes back the leftover bytes of
`b` over the zeroed region of the buffer. -/
theorem sparse8_fold (b : List Nat) (hb : ∀ x ∈ b, x < 256) (s : List Nat)
    (base : Nat) :
    ∀ (W c ptr : Nat) (buf post : List Nat),
      s.drop ptr =
        ((List.range' c W).flatMap fun k => sparseItem (int8At b (base + k))) ++
          post →
      (∀ t, base + c ≤ t → t < buf.length → buf[t]? = some 0) →
      ∃ buf',
        (List.range' c W).foldlM (fun st k => sparseStep8 s (base + k) st)
          (ptr, buf) =
          some (ptr + ((List.range' c W).flatMap fun k =>
            sparseItem (int8At b (base + k))).length, buf') ∧
        buf'.length = buf.length ∧
        ∀ t, buf'[t]? =
          if base + c ≤ t ∧ t < base + (c + W) ∧ t < buf.length then
            some (b.getD t 0)
          else buf[t]? := by
  intro W
  induction W with
  | zero =>
    intro c ptr buf post hdrop hzero
    refine ⟨buf, by simp [List.foldlM_nil], rfl, ?_⟩
    intro t
    rw [if_neg (by omega)]
  | succ W ih =>
    intro c ptr buf post hdrop hzero
    rw [List.range'_succ] at hdrop ⊢
    rw [List.flatMap_cons, List.append_assoc] at hdrop
    have hdropnext : s.drop (ptr + (sparseItem (int8At b (base + c))).length) =
        ((List.range' (c + 1) W).flatMap fun k =>
          sparseItem (int8At b (base + k))) ++ post := by
      have h := drop_add_of_drop s ptr (sparseItem (int8At b (base + c))).length
        _ hdrop
      rw [List.drop_left] at h
      exact h
    rw [List.foldlM_cons, sparseStep8_one b hb s (base + c) ptr buf _ hdrop]
    by_cases hzw : b.getD (base + c) 0 = 0
    · rw [if_pos hzw]
      obtain ⟨buf', hfold, hlen', hpt⟩ := ih (c + 1)
        (ptr + (sparseItem (int8At b (base + c))).length) buf post hdropnext
        (fun t ht hl => hzero t (by omega) hl)
      refine ⟨buf', ?_, hlen', ?_⟩
      · show (List.range' (c + 1) W).foldlM (fun st k => sparseStep8 s (base + k) st)
          (ptr + (sparseItem (int8At b (base + c))).length, buf) = _
        rw [hfold, List.flatMap_cons, List.length_append]
        rw [show ptr + ((sparseItem (int8At b (base + c))).length +
          (((List.range' (c + 1) W).flatMap fun k =>
            sparseItem (int8At b (base + k))).length)) =
          ptr + (sparseItem (int8At b (base + c))).length +
          (((List.range' (c + 1) W).flatMap fun k =>
            sparseItem (int8At b (base + k))).length) from by omega]
      · intro t
        rw [hpt t]
        by_cases hA : base + (c + 1) ≤ t ∧ t < base + (c + 1 + W) ∧ t < buf.length
        · rw [if_pos hA, if_pos (by omega)]
        · rw [if_neg hA]
          by_cases hB : base + c ≤ t ∧ t < base + (c + (W + 1)) ∧ t < buf.length
          · have ht : t = base + c := by omega
            rw [if_pos hB, hzero t (by omega) (by omega), ht, hzw]
          · rw [if_neg hB]
    · rw [if_neg hzw]
      have hlen₂ : (buf.set (base + c) (b.getD (base + c) 0)).length = buf.length :=
        List.length_set buf _ _
      have hzero₂ : ∀ t, base + (c + 1) ≤ t →
          t < (buf.set (base + c) (b.getD (base + c) 0)).length →
          (buf.set (base + c) (b.getD (base + c) 0))[t]? = some 0 := by
        intro t ht hl
        rw [List.getElem?_set_ne (by omega)]
        exact hzero t (by omega) (by omega)
      obtain ⟨buf', hfold, hlen', hpt⟩ := ih (c + 1)
        (ptr + (sparseItem (int8At b (base + c))).length)
        (buf.set (base + c) (b.getD (base + c) 0)) post hdropnext hzero₂
      refine ⟨buf', ?_, by rw [hlen', hlen₂], ?_⟩
      · show (List.range' (c + 1) W).foldlM (fun st k => sparseStep8 s (base + k) st)
          (ptr + (sparseItem (int8At b (base + c))).length,
            buf.set (base + c) (b.getD (base + c) 0)) = _
        rw [hfold, List.flatMap_cons, List.length_append]
        rw [show ptr + ((sparseItem (int8At b (base + c))).length +
          (((List.range' (c + 1) W).flatMap fun k =>
            sparseItem (int8At b (base + k))).length)) =
          ptr + (sparseItem (int8At b (base + c))).length +
          (((List.range' (c + 1) W).flatMap fun k =>
            sparseItem (int8At b (base + k))).length) from by omega]
      · intro t
        rw [hpt t, hlen₂, List.getElem?_set]
        by_cases hA : base + (c + 1) ≤ t ∧ t < base + (c + 1 + W) ∧ t < buf.length
        · rw [if_pos hA, if_pos (by omega)]
        · rw [if_neg hA]
          by_cases hC : base + c = t
          · by_cases hT : t < buf.length
            · rw [if_pos hC, if_pos (by omega), if_pos (by omega), hC]
            · rw [if_pos hC, if_neg (by omega), if_neg (by omega),
                List.getElem?_eq_none (by omega)]
          · rw [if_neg hC, if_neg (by omega)]

/-- Sparse path of the sub-codec: decoding the sparse encoding of the first
`e` bytes into a fresh zero buffer reproduces those bytes and leaves the rest
zero. -/
theorem sparseFromStr_sparseToStr (b : List Nat) (hb : ∀ x ∈ b, x < 256)
    (e : Nat) (he : e ≤ b.length) (hrem : e % 4 ≠ 0 → e = b.length) :
    sparseArrayBufferFromStr (sparseArrayBufferToStr b e)
      (List.replicate b.length 0) =
      some (b.take e ++ List.replicate (b.length - e) 0) := by
  have hsplit : sparseArrayBufferToStr b e =
      serializeSize e ++
        (((List.range' 0 (e / 4)).flatMap fun i => sparseItem (int32At b i)) ++
          ((List.range' 0 (e % 4)).flatMap fun k =>
            sparseItem (int8At b (e - e % 4 + k)))) := by
    unfold sparseArrayBufferToStr
    rw [List.range_eq_range', List.range_eq_range', List.append_assoc]
  have hfuel : (sizeDigitsF (e + 1) e).length <
      (sparseArrayBufferToStr b e).length + 1 := by
    rw [hsplit, List.length_append, length_serializeSize]
    omega
  have hsize := deserializeSizeF_encode e
    (((List.range' 0 (e / 4)).flatMap fun i => sparseItem (int32At b i)) ++
      ((List.range' 0 (e % 4)).flatMap fun k =>
        sparseItem (int8At b (e - e % 4 + k))))
    ((sparseArrayBufferToStr b e).length + 1) hfuel
  rw [← hsplit] at hsize
  have hdrop32 : (sparseArrayBufferToStr b e).drop (serializeSize e).length =
      ((List.range' 0 (e / 4)).flatMap fun i => sparseItem (int32At b i)) ++
        ((List.range' 0 (e % 4)).flatMap fun k =>
          sparseItem (int8At b (e - e % 4 + k))) := by
    rw [hsplit, List.drop_left]
  obtain ⟨buf₁, hfold₁, hlen₁, hpt₁⟩ := sparse32_fold b hb
    (sparseArrayBufferToStr b e) (e / 4) 0 (serializeSize e).length
    (List.replicate b.length 0)
    ((List.range' 0 (e % 4)).flatMap fun k => sparseItem (int8At b (e - e % 4 + k)))
    hdrop32
    (fun t _ hl => by
      rw [List.getElem?_replicate, if_pos (by rw [List.length_replicate] at hl; omega)])
  rw [List.length_replicate] at hlen₁
  have hdrop8 : (sparseArrayBufferToStr b e).drop ((serializeSize e).length +
      ((List.range' 0 (e / 4)).flatMap fun i => sparseItem (int32At b i)).length) =
      ((List.range' 0 (e % 4)).flatMap fun k =>
        sparseItem (int8At b (e - e % 4 + k))) ++ ([] : List Nat) := by
    have h := drop_add_of_drop (sparseArrayBufferToStr b e)
      (serializeSize e).length
      ((List.range' 0 (e / 4)).flatMap fun i => sparseItem (int32At b i)).length
      _ hdrop32
    rw [List.drop_left] at h
    rw [h, List.append_nil]
  obtain ⟨buf₂, hfold₂, hlen₂, hpt₂⟩ := sparse8_fold b hb
    (sparseArrayBufferToStr b e) (e - e % 4) (e % 4) 0
    ((serializeSize e).length +
      ((List.range' 0 (e / 4)).flatMap fun i => sparseItem (int32At b i)).length)
    buf₁ [] hdrop8
    (fun t ht hl => by
      rw [hpt₁ t, if_neg (by omega), List.getElem?_replicate,
        if_pos (by rw [List.length_replicate] at *; omega)])
  unfold sparseArrayBufferFromStr
  rw [hsize]
  show (((List.range ((some e).getD 0 / 4)).foldlM
      (fun st i => sparseStep32 (sparseArrayBufferToStr b e) i st)
      ((serializeSize e).length, List.replicate b.length 0)).bind _) = _
  rw [show ((some e).getD 0) = e from rfl, List.range_eq_range', hfold₁]
  show (((List.range (e % 4)).foldlM
      (fun st k => sparseStep8 (sparseArrayBufferToStr b e) (e - e % 4 + k) st)
      ((serializeSize e).length +
        ((List.range' 0 (e / 4)).flatMap fun i => sparseItem (int32At b i)).length,
        buf₁)).bind _) = _
  rw [List.range_eq_range', hfold₂]
  show some buf₂ = _
  congr 1
  apply List.ext_getElem?
  intro i
  rw [hpt₂ i, hpt₁ i]
  simp only [List.length_replicate, hlen₁]
  by_cases hiL : i < b.length
  · by_cases hiw : i < 4 * (e / 4)
    · rw [if_neg (by omega), if_pos ⟨by omega, by omega, by omega⟩,
        List.getElem?_append_left (by rw [List.length_take]; omega),
        List.getElem?_take, if_pos (by omega), getElem?_eq_some_getD b i hiL]
    · by_cases hie : i < e
      · rw [if_pos ⟨by omega, by omega, by omega⟩,
          List.getElem?_append_left (by rw [List.length_take]; omega),
          List.getElem?_take, if_pos (by omega), getElem?_eq_some_getD b i hiL]
      · rw [if_neg (by omega), if_neg (by omega), List.getElem?_replicate,
          if_pos (by omega),
          List.getElem?_append_right (by rw [List.length_take]; omega),
          List.getElem?_replicate, if_pos (by rw [List.length_take]; omega)]
  · rw [if_neg (by omega), if_neg (by omega), List.getElem?_replicate,
      if_neg (by omega),
      List.getElem?_eq_none (by
        rw [List.length_append, List.length_take, List.length_replicate]
        omega)]

/-- **C4 (amended).** For every byte buffer of length 0..1000, both the dense
and the sparse sub-codec path reproduce exactly the first `contentByteLength`
bytes, and every byte beyond the trimmed region decodes as zero.  The claim's
"exact original bytes" round trip therefore holds precisely when all dropped
bytes are zero — which fails for the 1–3 leftover bytes when they are nonzero
and at least one trailing all-zero word was trimmed (see the counterexample):
trimming drops the leftover bytes along with the trailing zero words rather
than preserving them. -/
theorem c4_bytebuffer_roundtrip (b : List Nat) (hb : ∀ x ∈ b, x < 256)
    (hlen : b.length ≤ 1000) :
    denseRoundTrip b =
      b.take (contentByteLength b) ++
        List.replicate (b.length - contentByteLength b) 0 ∧
    sparseRoundTrip b =
      some (b.take (contentByteLength b) ++
        List.replicate (b.length - contentByteLength b) 0) ∧
    ((∀ i, contentByteLength b ≤ i → i < b.length → b.getD i 0 = 0) →
      denseRoundTrip b = b ∧ sparseRoundTrip b = some b) := by
  have he := contentByteLength_le b
  have hrem : contentByteLength b % 4 ≠ 0 → contentByteLength b = b.length :=
    contentByteLength_mod b
  have hd := denseFromStr_denseToStr b hb _ he hrem
  have hs := sparseFromStr_sparseToStr b hb _ he hrem
  refine ⟨hd, hs, fun hz => ?_⟩
  have hbeq : b.take (contentByteLength b) ++
      List.replicate (b.length - contentByteLength b) 0 = b := by
    conv_rhs => rw [← List.take_append_drop (contentByteLength b) b]
    congr 1
    apply List.ext_getElem?
    intro i
    rw [List.getElem?_replicate]
    by_cases hi : i < b.length - contentByteLength b
    · rw [if_pos hi, List.getElem?_drop,
        getElem?_eq_some_getD b _ (by omega),
        hz (contentByteLength b + i) (by omega) (by omega)]
    · rw [if_neg hi, List.getElem?_eq_none (by rw [List.length_drop]; omega)]
  rw [hbeq] at hd hs
  exact ⟨hd, hs⟩

/-- Witness for C4 (amended) at the 3-byte buffer `[1, 2, 3]` (no full word,
nothing trimmed). -/
theorem c4_bytebuffer_roundtrip_witness :
    denseRoundTrip [1, 2, 3] = [1, 2, 3] ∧
    sparseRoundTrip [1, 2, 3] = some [1, 2, 3] :=
  (c4_bytebuffer_roundtrip [1, 2, 3] (by decide) (by norm_num)).2.2
    (fun i h1 h2 => by
      rw [show contentByteLength [1, 2, 3] = 3 from by decide] at h1
      rw [show ([1, 2, 3] : List Nat).length = 3 from rfl] at h2
      omega)

/-! ## LZ4 block codec (`LZ4BlockJS.encodeBlock` / `decodeBlock`)

Byte buffers are `List Nat` (entries `< 256`).  The hash table is a function
`Nat → Int` initialised to `-65536` (`hashTable.fill(-65536)`).  Loops carry
explicit fuel; the wrappers pass `length + 1`, which is always sufficient —
the match scan and the extension loop advance the input cursor on every step,
each encoded sequence consumes at least 4 input bytes, and each decoded
sequence consumes at least the token byte.  JS reads out of range yield
`undefined`: in comparisons that makes the comparison false (`readB` returns
`none` there), and values stored into a typed array coerce `undefined` to 0
(reads modelled with `getD _ _ 0` where that is the observable behaviour). -/

/-- The rolling 4-byte sequence at byte position `i`, as the unsigned value of
the `sequence` variable (little-endian packing). -/
def seq4 (b : List Nat) (i : Nat) : Nat :=
  b.getD i 0 + 256 * b.getD (i + 1) 0 + 65536 * b.getD (i + 2) 0 +
    16777216 * b.getD (i + 3) 0

/-- `(sequence * 0x9E37 & 0xFFFF) + (sequence * 0x79B1 >>> 16) & 0xFFFF`.
`&`, `>>>` and the int32 wraparound only depend on the argument modulo
`2^32`/`2^16`, so the unsigned value of `sequence` can be used directly. -/
def lz4Hash (u : Nat) : Nat :=
  (u * 0x9E37 % 65536 + u * 0x79B1 % 4294967296 / 65536) % 65536

/-- In-range read of a byte at a possibly negative index; `none` is the JS
`undefined`, which compares unequal to every byte value. -/
def readB (b : List Nat) (i : Int) : Option Nat :=
  if 0 ≤ i ∧ i < (b.length : Int) then some (b.getD i.toNat 0) else none

/-- The match-finding loop: scan from `iPos` while `iPos <= iLen - 12`,
hashing the rolling sequence, replacing the table entry, and stopping at the
first table hit within 65536 bytes whose four bytes coincide.  Returns the
updated table, the match position and the reference position. -/
def findMatchF : Nat → (Nat → Int) → List Nat → Nat →
    Option ((Nat → Int) × Nat × Nat)
  | 0, _, _, _ => none
  | fuel + 1, tbl, b, iPos =>
    if (iPos : Int) ≤ (b.length : Int) - 12 then
      let u := seq4 b iPos
      let h := lz4Hash u
      let refPos := tbl h
      let tbl' := fun x => if x = h then (iPos : Int) else tbl x
      if (iPos : Int) - refPos < 65536 ∧
          readB b refPos = some (u % 256) ∧
          readB b (refPos + 1) = some (u / 256 % 256) ∧
          readB b (refPos + 2) = some (u / 65536 % 256) ∧
          readB b (refPos + 3) = some (u / 16777216 % 256) then
        some (tbl', iPos, refPos.toNat)
      else findMatchF fuel tbl' b (iPos + 1)
    else none

/-- The greedy match-extension loop, `while (iPos < lastLiteralPos && iBuf[iPos]
=== iBuf[refPos]) { iPos += 1; refPos += 1; }`. -/
def extendF : Nat → List Nat → Nat → Nat → Nat
  | 0, _, iPos, _ => iPos
  | fuel + 1, b, iPos, refPos =>
    if (iPos : Int) < (b.length : Int) - 5 ∧ b.getD iPos 0 = b.getD refPos 0 then
      extendF fuel b (iPos + 1) (refPos + 1)
    else iPos

/-- Length-extension bytes: a run of 255s followed by the remainder. -/
def extBytes (l : Nat) : List Nat :=
  List.replicate (l / 255) 255 ++ [l % 255]

/-- The trailing literals-only sequence (`lLen = iLen - anchorPos`). -/
def finalLits (b : List Nat) (anchor : Nat) : List Nat :=
  let lLen := b.length - anchor
  (if 15 ≤ lLen then 0xF0 :: extBytes (lLen - 15) else [lLen * 16]) ++
    b.drop anchor

/-- The sequence-finding loop of `encodeBlock`.  `0xF0 | token` is
`0xF0 + token` and `(lLen << 4) | token` is `lLen * 16 + token` since
`token ≤ 15`.  The `mLen = 0` break of the source is dead (`mLen ≥ 4` always)
but modelled: it falls through to the final literals-only sequence with the
anchor already advanced past the copied literals. -/
def encLoopF : Nat → (Nat → Int) → List Nat → Nat → List Nat
  | 0, _, _, _ => []
  | fuel + 1, tbl, b, anchor =>
    match findMatchF (b.length + 1) tbl b anchor with
    | none => finalLits b anchor
    | some (tbl', mStart, refPos) =>
      let iPos' := extendF (b.length + 1) b (mStart + 4) (refPos + 4)
      let mLen := iPos' - mStart
      let lLen := mStart - anchor
      let mOff := mStart - refPos
      let token := if mLen < 19 then mLen - 4 else 15
      let head := if 15 ≤ lLen then (0xF0 + token) :: extBytes (lLen - 15)
        else [lLen * 16 + token]
      let lits := (b.drop anchor).take lLen
      if mLen = 0 then head ++ lits ++ finalLits b mStart
      else
        head ++ lits ++ [mOff % 256, mOff / 256 % 256] ++
          (if 19 ≤ mLen then extBytes (mLen - 19) else []) ++
          encLoopF fuel tbl' b iPos'

/-- `encodeBlock(iBuf, oOffset)`: `RangeError` for ≥ `0x7E000000` input bytes
is `none`; the `oOffset` prefix of the zero-initialised output buffer is left
as zeros. -/
def encodeBlock (b : List Nat) (oOffset : Nat) : Option (List Nat) :=
  if 0x7E000000 ≤ b.length then none
  else some (List.replicate oOffset 0 ++
    encLoopF (b.length + 1) (fun _ => -65536) b 0)

/-- Length-extension reader: consume 255s, add the final byte.  A read past
the end of the input gives `undefined` in JS, which exits the loop; the value
added is then `NaN` — such streams fail later either way, and no theorem
below decodes them. -/
def readExtL : List Nat → Nat × List Nat
  | [] => (0, [])
  | l :: rest =>
    if l = 255 then ((readExtL rest).1 + 255, (readExtL rest).2)
    else (l, rest)

/-- A store `oBuf[oPos++] = v` of the decoder: appended when within the
declared output length, silently dropped beyond it. -/
def pushCapped (out : List Nat) (oLen v : Nat) : List Nat :=
  if out.length < oLen then out ++ [v] else out

def pushAllCapped (out : List Nat) (oLen : Nat) : List Nat → List Nat
  | [] => out
  | v :: vs => pushAllCapped (pushCapped out oLen v) oLen vs

/-- The match-copy loop: copy `count` bytes from the already-decoded output
at `mPos`, one at a time (self-overlap reads see freshly written bytes). -/
def copyMatch : Nat → Nat → Nat → Nat → List Nat → List Nat × Nat
  | 0, _, oPos, _, out => (out, oPos)
  | count + 1, oLen, oPos, mPos, out =>
    copyMatch count oLen (oPos + 1) (mPos + 1) (pushCapped out oLen (out.getD mPos 0))

/-- The decoder loop of `decodeBlock`, consuming the remaining input.
`oPos` is tracked separately from the written list (stores beyond `oLen` are
dropped, but the cursor still advances).  Reaching the end of the input
returns the declared-length output (zero-filled beyond what was written);
a zero or too-far back-reference offset returns `none` (`return;`). -/
def decLoopF : Nat → List Nat → Nat → Nat → List Nat → Option (List Nat)
  | 0, _, _, _, _ => none
  | fuel + 1, rem, oLen, oPos, out =>
    match rem with
    | [] => some (out ++ List.replicate (oLen - out.length) 0)
    | token :: rem₁ =>
      let matchPart := fun (rem' : List Nat) (oPos' : Nat) (out' : List Nat) =>
        let mOff := rem'.getD 0 0 + 256 * rem'.getD 1 0
        if mOff = 0 ∨ oPos' < mOff then none
        else
          let rem'' := rem'.drop 2
          let p := if token % 16 + 4 = 19 then
              ((readExtL rem'').1 + 19, (readExtL rem'').2)
            else (token % 16 + 4, rem'')
          let q := copyMatch p.1 oLen oPos' (oPos' - mOff) out'
          decLoopF fuel p.2 oLen q.2 q.1
      let clen₀ := token / 16
      if clen₀ = 0 then matchPart rem₁ oPos out
      else
        let p := if clen₀ = 15 then ((readExtL rem₁).1 + 15, (readExtL rem₁).2)
          else (clen₀, rem₁)
        let lits := p.2.take p.1 ++ List.replicate (p.1 - p.2.length) 0
        let out₁ := pushAllCapped out oLen lits
        if p.1 = p.2.length then
          some (out₁ ++ List.replicate (oLen - out₁.length) 0)
        else matchPart (p.2.drop p.1) (oPos + p.1) out₁

/-- `decodeBlock(iBuf, iOffset, oLen)`. -/
def decodeBlock (input : List Nat) (iOffset oLen : Nat) : Option (List Nat) :=
  decLoopF (input.length + 1) (input.drop iOffset) oLen 0 []

theorem readExtL_run (m : Nat) (hm : m < 255) (r : List Nat) :
    ∀ k, readExtL (List.replicate k 255 ++ m :: r) = (255 * k + m, r) := by
  intro k
  induction k with
  | zero =>
    simp only [List.replicate, List.nil_append, readExtL]
    rw [if_neg (by omega)]
    simp
  | succ k ih =>
    rw [List.replicate_succ, List.cons_append]
    simp only [readExtL]
    rw [if_pos trivial, ih]
    rw [show 255 * k + m + 255 = 255 * (k + 1) + m from by ring]

theorem readExtL_extBytes (l : Nat) (r : List Nat) :
    readExtL (extBytes l ++ r) = (l, r) := by
  rw [extBytes, List.append_assoc, List.singleton_append,
    readExtL_run (l % 255) (Nat.mod_lt _ (by omega)) r (l / 255),
    Nat.div_add_mod l 255]

theorem pushAllCapped_append (oLen : Nat) :
    ∀ (vs out : List Nat), out.length + vs.length ≤ oLen →
      pushAllCapped out oLen vs = out ++ vs := by
  intro vs
  induction vs with
  | nil => intro out _; simp [pushAllCapped]
  | cons v vs ih =>
    intro out h
    simp only [List.length_cons] at h
    simp only [pushAllCapped, pushCapped]
    rw [if_pos (by omega), ih (out ++ [v]) (by simp; omega), List.append_assoc,
      List.singleton_append]

theorem getD_take (b : List Nat) (p i : Nat) (h : i < p) :
    (b.take p).getD i 0 = b.getD i 0 := by
  rw [List.getD_eq_getElem?_getD, List.getElem?_take, if_pos h,
    ← List.getD_eq_getElem?_getD]

theorem take_succ_getD (b : List Nat) (p : Nat) (h : p < b.length) :
    b.take (p + 1) = b.take p ++ [b.getD p 0] := by
  rw [List.take_succ, getElem?_eq_some_getD b p h]
  rfl

theorem copyMatch_take (b : List Nat) :
    ∀ (count p mOff : Nat), 0 < mOff → mOff ≤ p → p + count ≤ b.length →
      (∀ k, p ≤ k → k < p + count → b.getD k 0 = b.getD (k - mOff) 0) →
      copyMatch count b.length p (p - mOff) (b.take p) =
        (b.take (p + count), p + count) := by
  intro count
  induction count with
  | zero => intro p mOff _ _ _ _; simp [copyMatch]
  | succ c ih =>
    intro p mOff h0 h1 h2 hk
    have hlt : p < b.length := by omega
    simp only [copyMatch]
    have hread : (b.take p).getD (p - mOff) 0 = b.getD p 0 := by
      rw [getD_take _ _ _ (by omega)]
      exact (hk p (le_refl p) (by omega)).symm
    rw [hread]
    simp only [pushCapped]
    rw [if_pos (by rw [List.length_take]; omega), ← take_succ_getD b p hlt,
      show p - mOff + 1 = p + 1 - mOff from by omega]
    rw [ih (p + 1) mOff h0 (by omega) (by omega)
      (fun k hk1 hk2 => hk k (by omega) (by omega))]
    rw [show p + 1 + c = p + (c + 1) from by omega]

/-- Byte extraction from the rolling sequence value. -/
theorem seq4_bytes (b : List Nat) (hb : ∀ x ∈ b, x < 256) (i : Nat) :
    seq4 b i % 256 = b.getD i 0 ∧ seq4 b i / 256 % 256 = b.getD (i + 1) 0 ∧
      seq4 b i / 65536 % 256 = b.getD (i + 2) 0 ∧
      seq4 b i / 16777216 % 256 = b.getD (i + 3) 0 := by
  have h0 := getD_lt_256 b hb i
  have h1 := getD_lt_256 b hb (i + 1)
  have h2 := getD_lt_256 b hb (i + 2)
  have h3 := getD_lt_256 b hb (i + 3)
  rw [seq4]
  omega

/-- Hash-table invariant: every entry is either the initial `-65536` or a
previously scanned position, in range with 12 bytes of margin. -/
def TblInv (b : List Nat) (tbl : Nat → Int) (pos : Nat) : Prop :=
  ∀ h, tbl h = -65536 ∨
    (0 ≤ tbl h ∧ tbl h < (pos : Int) ∧ tbl h + 12 ≤ (b.length : Int))

theorem tblInv_init (b : List Nat) : TblInv b (fun _ => -65536) 0 :=
  fun _ => Or.inl rfl

theorem readB_some (b : List Nat) (i : Int) (v : Nat)
    (h : readB b i = some v) :
    0 ≤ i ∧ i < (b.length : Int) ∧ b.getD i.toNat 0 = v := by
  rw [readB] at h
  by_cases hc : 0 ≤ i ∧ i < (b.length : Int)
  · rw [if_pos hc] at h
    exact ⟨hc.1, hc.2, Option.some.inj h⟩
  · rw [if_neg hc] at h
    exact absurd h (by simp)

theorem findMatchF_sound (b : List Nat) (hb : ∀ x ∈ b, x < 256) :
    ∀ (fuel : Nat) (tbl : Nat → Int) (iPos : Nat) (tbl' : Nat → Int) (m r : Nat),
      TblInv b tbl iPos →
      findMatchF fuel tbl b iPos = some (tbl', m, r) →
      iPos ≤ m ∧ m + 12 ≤ b.length ∧ r < m ∧ m - r < 65536 ∧
        (∀ k, k < 4 → b.getD (r + k) 0 = b.getD (m + k) 0) ∧
        TblInv b tbl' (m + 1) := by
  intro fuel
  induction fuel with
  | zero => intro tbl iPos tbl' m r _ heq; exact absurd heq (by simp [findMatchF])
  | succ fuel ih =>
    intro tbl iPos tbl' m r hinv heq
    simp only [findMatchF] at heq
    split at heq
    · rename_i hscan
      have hinv' : TblInv b
          (fun x => if x = lz4Hash (seq4 b iPos) then (iPos : Int) else tbl x)
          (iPos + 1) := by
        intro x
        by_cases hx : x = lz4Hash (seq4 b iPos)
        · refine Or.inr ?_
          simp only [if_pos hx]
          refine ⟨by positivity, by omega, by omega⟩
        · simp only [if_neg hx]
          rcases hinv x with h | ⟨h1, h2, h3⟩
          · exact Or.inl h
          · exact Or.inr ⟨h1, by omega, h3⟩
      split at heq
      · rename_i hmatch
        obtain ⟨hoff, hrd0, hrd1, hrd2, hrd3⟩ := hmatch
        simp only [Option.some.injEq, Prod.mk.injEq] at heq
        obtain ⟨ht, hm, hr⟩ := heq
        subst hm
        subst hr
        obtain ⟨hg0, hl0, e0⟩ := readB_some _ _ _ hrd0
        obtain ⟨hg1, hl1, e1⟩ := readB_some _ _ _ hrd1
        obtain ⟨hg2, hl2, e2⟩ := readB_some _ _ _ hrd2
        obtain ⟨hg3, hl3, e3⟩ := readB_some _ _ _ hrd3
        obtain ⟨s0, s1, s2, s3⟩ := seq4_bytes b hb iPos
        rw [show (tbl (lz4Hash (seq4 b iPos)) + 1).toNat =
          (tbl (lz4Hash (seq4 b iPos))).toNat + 1 from by omega] at e1
        rw [show (tbl (lz4Hash (seq4 b iPos)) + 2).toNat =
          (tbl (lz4Hash (seq4 b iPos))).toNat + 2 from by omega] at e2
        rw [show (tbl (lz4Hash (seq4 b iPos)) + 3).toNat =
          (tbl (lz4Hash (seq4 b iPos))).toNat + 3 from by omega] at e3
        have hRlt : tbl (lz4Hash (seq4 b iPos)) < (iPos : Int) := by
          rcases hinv (lz4Hash (seq4 b iPos)) with h | ⟨_, h2, _⟩
          · omega
          · exact h2
        refine ⟨le_refl iPos, by omega, by omega, by omega, ?_, ht ▸ hinv'⟩
        intro k hk
        interval_cases k
        · simp only [Nat.add_zero]
          omega
        · omega
        · omega
        · omega
      · exact (ih _ _ _ _ _ hinv' heq).imp (by omega) id
    · exact Option.noConfusion heq

theorem extendF_sound (b : List Nat) :
    ∀ (fuel i r d : Nat), r + d = i → i + 5 ≤ b.length →
      i ≤ extendF fuel b i r ∧ extendF fuel b i r + 5 ≤ b.length ∧
        ∀ k, i ≤ k → k < extendF fuel b i r → b.getD k 0 = b.getD (k - d) 0 := by
  intro fuel
  induction fuel with
  | zero =>
    intro i r d _ h5
    simp only [extendF]
    exact ⟨le_refl i, h5, fun k hk1 hk2 => absurd hk1 (by omega)⟩
  | succ fuel ih =>
    intro i r d hd h5
    simp only [extendF]
    by_cases hc : (i : Int) < (b.length : Int) - 5 ∧ b.getD i 0 = b.getD r 0
    · rw [if_pos hc]
      obtain ⟨ha, hb2, hc2⟩ := ih (i + 1) (r + 1) d (by omega) (by omega)
      refine ⟨by omega, hb2, ?_⟩
      intro k hk1 hk2
      by_cases hk : k = i
      · subst hk
        rw [hc.2, show k - d = r from by omega]
      · exact hc2 k (by omega) hk2
    · rw [if_neg hc]
      exact ⟨le_refl i, h5, fun k hk1 hk2 => absurd hk1 (by omega)⟩

/-- Decoding the trailing literals-only sequence from a state where the first
`anchor` output bytes are already reconstructed yields the whole input. -/
theorem decLoopF_final (f : Nat) (b : List Nat) (anchor : Nat)
    (hlt : anchor < b.length) :
    decLoopF (f + 1) (finalLits b anchor) b.length anchor (b.take anchor) =
      some b := by
  have hend : ∀ (x : Option (List Nat)),
      (if b.length - anchor = (b.drop anchor).length then
      some ((pushAllCapped (b.take anchor) b.length
          ((b.drop anchor).take (b.length - anchor) ++
            List.replicate (b.length - anchor - (b.drop anchor).length) 0)) ++
        List.replicate (b.length -
          (pushAllCapped (b.take anchor) b.length
            ((b.drop anchor).take (b.length - anchor) ++
              List.replicate (b.length - anchor - (b.drop anchor).length) 0)).length)
          0)
    else x) = some b := by
    intro x
    rw [if_pos (List.length_drop ..).symm, List.length_drop, Nat.sub_self,
      List.replicate_zero, List.append_nil,
      List.take_of_length_le (le_of_eq (List.length_drop ..)),
      pushAllCapped_append b.length (b.drop anchor) (b.take anchor)
        (by rw [List.length_take, List.length_drop]; omega),
      List.take_append_drop, Nat.sub_self, List.replicate_zero, List.append_nil]
  rw [finalLits]
  by_cases h15 : 15 ≤ b.length - anchor
  · rw [if_pos h15, List.cons_append]
    simp only [decLoopF]
    rw [show (240 : Nat) / 16 = 15 from rfl,
      if_neg (show ¬(15 : Nat) = 0 from by omega), if_pos trivial,
      readExtL_extBytes]
    simp only []
    rw [show b.length - anchor - 15 + 15 = b.length - anchor from by omega,
      show (240 : Nat) % 16 = 0 from rfl]
    exact hend _
  · rw [if_neg h15, List.singleton_append]
    simp only [decLoopF]
    rw [show (b.length - anchor) * 16 / 16 = b.length - anchor from by omega,
      if_neg (show ¬(b.length - anchor) = 0 from by omega),
      if_neg (show ¬(b.length - anchor) = 15 from by omega)]
    simp only []
    exact hend _

theorem take_append_eq (l₁ l₂ : List Nat) (n : Nat) (h : l₁.length = n) :
    (l₁ ++ l₂).take n = l₁ := by
  subst h
  exact List.take_left _ _

theorem drop_append_eq (l₁ l₂ : List Nat) (n : Nat) (h : l₁.length = n) :
    (l₁ ++ l₂).drop n = l₂ := by
  subst h
  exact List.drop_left _ _

theorem take_add_eq (b : List Nat) (anchor mStart : Nat) (h : anchor ≤ mStart) :
    b.take anchor ++ (b.drop anchor).take (mStart - anchor) = b.take mStart := by
  rw [← List.take_add, show anchor + (mStart - anchor) = mStart from by omega]

theorem tblInv_mono (b : List Nat) (tbl : Nat → Int) (p q : Nat) (h : p ≤ q)
    (hi : TblInv b tbl p) : TblInv b tbl q :=
  fun x => (hi x).imp id (fun hx => ⟨hx.1, by omega, hx.2.2⟩)

/-- Decoding the match part of a sequence: from a state where the first
`mStart` bytes are reconstructed, the back-reference copy extends the output
to the first `E` bytes and decoding proceeds on the remaining stream. -/
theorem decLoopF_matchPhase (b : List Nat) (mStart E mOff fuelD : Nat)
    (REST : List Nat)
    (h4 : mStart + 4 ≤ E) (hE : E ≤ b.length) (ho0 : 0 < mOff)
    (hoa : mOff ≤ mStart) (ho16 : mOff < 65536)
    (hmeq : ∀ k, mStart ≤ k → k < E → b.getD k 0 = b.getD (k - mOff) 0) :
    (if (mOff % 256 :: mOff / 256 % 256 ::
          ((if 19 ≤ E - mStart then extBytes (E - mStart - 19) else []) ++
            REST)).getD 0 0 +
        256 * (mOff % 256 :: mOff / 256 % 256 ::
          ((if 19 ≤ E - mStart then extBytes (E - mStart - 19) else []) ++
            REST)).getD 1 0 = 0 ∨
      mStart < (mOff % 256 :: mOff / 256 % 256 ::
          ((if 19 ≤ E - mStart then extBytes (E - mStart - 19) else []) ++
            REST)).getD 0 0 +
        256 * (mOff % 256 :: mOff / 256 % 256 ::
          ((if 19 ≤ E - mStart then extBytes (E - mStart - 19) else []) ++
            REST)).getD 1 0 then none
    else
      decLoopF fuelD
        (if (if E - mStart < 19 then E - mStart - 4 else 15) + 4 = 19 then
            ((readExtL ((mOff % 256 :: mOff / 256 % 256 ::
                ((if 19 ≤ E - mStart then extBytes (E - mStart - 19) else []) ++
                  REST)).drop 2)).1 + 19,
              (readExtL ((mOff % 256 :: mOff / 256 % 256 ::
                ((if 19 ≤ E - mStart then extBytes (E - mStart - 19) else []) ++
                  REST)).drop 2)).2)
          else ((if E - mStart < 19 then E - mStart - 4 else 15) + 4,
            (mOff % 256 :: mOff / 256 % 256 ::
              ((if 19 ≤ E - mStart then extBytes (E - mStart - 19) else []) ++
                REST)).drop 2)).2
        b.length
        (copyMatch
          (if (if E - mStart < 19 then E - mStart - 4 else 15) + 4 = 19 then
              ((readExtL ((mOff % 256 :: mOff / 256 % 256 ::
                  ((if 19 ≤ E - mStart then extBytes (E - mStart - 19) else []) ++
                    REST)).drop 2)).1 + 19,
                (readExtL ((mOff % 256 :: mOff / 256 % 256 ::
                  ((if 19 ≤ E - mStart then extBytes (E - mStart - 19) else []) ++
                    REST)).drop 2)).2)
            else ((if E - mStart < 19 then E - mStart - 4 else 15) + 4,
              (mOff % 256 :: mOff / 256 % 256 ::
                ((if 19 ≤ E - mStart then extBytes (E - mStart - 19) else []) ++
                  REST)).drop 2)).1
          b.length mStart
          (mStart - ((mOff % 256 :: mOff / 256 % 256 ::
              ((if 19 ≤ E - mStart then extBytes (E - mStart - 19) else []) ++
                REST)).getD 0 0 +
            256 * (mOff % 256 :: mOff / 256 % 256 ::
              ((if 19 ≤ E - mStart then extBytes (E - mStart - 19) else []) ++
                REST)).getD 1 0))
          (b.take mStart)).2
        (copyMatch
          (if (if E - mStart < 19 then E - mStart - 4 else 15) + 4 = 19 then
              ((readExtL ((mOff % 256 :: mOff / 256 % 256 ::
                  ((if 19 ≤ E - mStart then extBytes (E - mStart - 19) else []) ++
                    REST)).drop 2)).1 + 19,
                (readExtL ((mOff % 256 :: mOff / 256 % 256 ::
                  ((if 19 ≤ E - mStart then extBytes (E - mStart - 19) else []) ++
                    REST)).drop 2)).2)
            else ((if E - mStart < 19 then E - mStart - 4 else 15) + 4,
              (mOff % 256 :: mOff / 256 % 256 ::
                ((if 19 ≤ E - mStart then extBytes (E - mStart - 19) else []) ++
                  REST)).drop 2)).1
          b.length mStart
          (mStart - ((mOff % 256 :: mOff / 256 % 256 ::
              ((if 19 ≤ E - mStart then extBytes (E - mStart - 19) else []) ++
                REST)).getD 0 0 +
            256 * (mOff % 256 :: mOff / 256 % 256 ::
              ((if 19 ≤ E - mStart then extBytes (E - mStart - 19) else []) ++
                REST)).getD 1 0))
          (b.take mStart)).1) =
    decLoopF fuelD REST b.length E (b.take E) := by
  rw [show (mOff % 256 :: mOff / 256 % 256 ::
      ((if 19 ≤ E - mStart then extBytes (E - mStart - 19) else []) ++
        REST)).getD 0 0 = mOff % 256 from rfl,
    show (mOff % 256 :: mOff / 256 % 256 ::
      ((if 19 ≤ E - mStart then extBytes (E - mStart - 19) else []) ++
        REST)).getD 1 0 = mOff / 256 % 256 from rfl,
    show mOff % 256 + 256 * (mOff / 256 % 256) = mOff from by omega,
    if_neg (show ¬(mOff = 0 ∨ mStart < mOff) from by omega),
    show (mOff % 256 :: mOff / 256 % 256 ::
      ((if 19 ≤ E - mStart then extBytes (E - mStart - 19) else []) ++
        REST)).drop 2 =
      (if 19 ≤ E - mStart then extBytes (E - mStart - 19) else []) ++ REST
      from rfl]
  by_cases h19 : E - mStart < 19
  · rw [if_pos h19, if_neg (show ¬19 ≤ E - mStart from by omega),
      List.nil_append,
      if_neg (show ¬(E - mStart - 4 + 4 = 19) from by omega)]
    simp only []
    rw [show E - mStart - 4 + 4 = E - mStart from by omega,
      copyMatch_take b (E - mStart) mStart mOff ho0 hoa (by omega)
        (fun k hk1 hk2 => hmeq k hk1 (by omega))]
    simp only []
    rw [show mStart + (E - mStart) = E from by omega]
  · rw [if_neg h19, if_pos (show 19 ≤ E - mStart from by omega),
      show (15 : Nat) + 4 = 19 from rfl, if_pos rfl, readExtL_extBytes]
    simp only []
    rw [show E - mStart - 19 + 19 = E - mStart from by omega,
      copyMatch_take b (E - mStart) mStart mOff ho0 hoa (by omega)
        (fun k hk1 hk2 => hmeq k hk1 (by omega))]
    simp only []
    rw [show mStart + (E - mStart) = E from by omega]

/-- Decoding one encoded match sequence advances the reconstructed output
from the first `anchor` bytes to the first `E` bytes. -/
theorem decLoopF_seq (b : List Nat) (anchor mStart E mOff fuelD : Nat)
    (REST : List Nat)
    (ha : anchor ≤ mStart) (h4 : mStart + 4 ≤ E) (hE : E ≤ b.length)
    (ho0 : 0 < mOff) (hoa : mOff ≤ mStart) (ho16 : mOff < 65536)
    (hmeq : ∀ k, mStart ≤ k → k < E → b.getD k 0 = b.getD (k - mOff) 0) :
    decLoopF (fuelD + 1)
      ((if 15 ≤ mStart - anchor then
          (240 + (if E - mStart < 19 then E - mStart - 4 else 15)) ::
            extBytes (mStart - anchor - 15)
        else [(mStart - anchor) * 16 +
          (if E - mStart < 19 then E - mStart - 4 else 15)]) ++
        ((b.drop anchor).take (mStart - anchor) ++
          (mOff % 256 :: mOff / 256 % 256 ::
            ((if 19 ≤ E - mStart then extBytes (E - mStart - 19) else []) ++
              REST))))
      b.length anchor (b.take anchor) =
    decLoopF fuelD REST b.length E (b.take E) := by
  have hlits : ((b.drop anchor).take (mStart - anchor)).length =
      mStart - anchor := by
    rw [List.length_take, List.length_drop]; omega
  by_cases hL : 15 ≤ mStart - anchor
  · rw [if_pos hL, List.cons_append]
    simp only [decLoopF]
    rw [show (240 + (if E - mStart < 19 then E - mStart - 4 else 15)) / 16 = 15
        from by split_ifs <;> omega,
      if_neg (show ¬(15 : Nat) = 0 from by omega), if_pos rfl,
      readExtL_extBytes]
    simp only []
    rw [show mStart - anchor - 15 + 15 = mStart - anchor from by omega,
      show (240 + (if E - mStart < 19 then E - mStart - 4 else 15)) % 16 =
        (if E - mStart < 19 then E - mStart - 4 else 15)
        from by split_ifs <;> omega,
      take_append_eq _ _ _ hlits,
      show mStart - anchor -
        ((b.drop anchor).take (mStart - anchor) ++
          (mOff % 256 :: mOff / 256 % 256 ::
            ((if 19 ≤ E - mStart then extBytes (E - mStart - 19) else []) ++
              REST))).length = 0
        from by rw [List.length_append, hlits]; omega,
      List.replicate_zero, List.append_nil,
      pushAllCapped_append b.length ((b.drop anchor).take (mStart - anchor))
        (b.take anchor) (by rw [List.length_take, hlits]; omega),
      take_add_eq b anchor mStart ha,
      if_neg (show ¬(mStart - anchor =
        ((b.drop anchor).take (mStart - anchor) ++
          (mOff % 256 :: mOff / 256 % 256 ::
            ((if 19 ≤ E - mStart then extBytes (E - mStart - 19) else []) ++
              REST))).length)
        from by
          rw [List.length_append, hlits, List.length_cons, List.length_cons]
          omega),
      drop_append_eq _ _ _ hlits,
      show anchor + (mStart - anchor) = mStart from by omega]
    exact decLoopF_matchPhase b mStart E mOff fuelD REST h4 hE ho0 hoa ho16 hmeq
  · by_cases h0 : mStart - anchor = 0
    · rw [if_neg hL, h0, Nat.zero_mul, Nat.zero_add, List.take_zero,
        List.nil_append, List.singleton_append]
      simp only [decLoopF]
      rw [show (if E - mStart < 19 then E - mStart - 4 else 15) / 16 = 0
          from by split_ifs <;> omega,
        if_pos rfl,
        show (if E - mStart < 19 then E - mStart - 4 else 15) % 16 =
          (if E - mStart < 19 then E - mStart - 4 else 15)
          from by split_ifs <;> omega,
        show anchor = mStart from by omega]
      exact decLoopF_matchPhase b mStart E mOff fuelD REST h4 hE ho0 hoa ho16 hmeq
    · rw [if_neg hL, List.singleton_append]
      simp only [decLoopF]
      rw [show ((mStart - anchor) * 16 +
          (if E - mStart < 19 then E - mStart - 4 else 15)) / 16 = mStart - anchor
          from by split_ifs <;> omega,
        if_neg h0, if_neg (show ¬(mStart - anchor = 15) from by omega)]
      simp only []
      rw [show ((mStart - anchor) * 16 +
          (if E - mStart < 19 then E - mStart - 4 else 15)) % 16 =
          (if E - mStart < 19 then E - mStart - 4 else 15)
          from by split_ifs <;> omega,
        take_append_eq _ _ _ hlits,
        show mStart - anchor -
          ((b.drop anchor).take (mStart - anchor) ++
            (mOff % 256 :: mOff / 256 % 256 ::
              ((if 19 ≤ E - mStart then extBytes (E - mStart - 19) else []) ++
                REST))).length = 0
          from by rw [List.length_append, hlits]; omega,
        List.replicate_zero, List.append_nil,
        pushAllCapped_append b.length ((b.drop anchor).take (mStart - anchor))
          (b.take anchor) (by rw [List.length_take, hlits]; omega),
        take_add_eq b anchor mStart ha,
        if_neg (show ¬(mStart - anchor =
          ((b.drop anchor).take (mStart - anchor) ++
            (mOff % 256 :: mOff / 256 % 256 ::
              ((if 19 ≤ E - mStart then extBytes (E - mStart - 19) else []) ++
                REST))).length)
          from by
            rw [List.length_append, hlits, List.length_cons, List.length_cons]
            omega),
        drop_append_eq _ _ _ hlits,
        show anchor + (mStart - anchor) = mStart from by omega]
      exact decLoopF_matchPhase b mStart E mOff fuelD REST h4 hE ho0 hoa ho16 hmeq

/-- Main invariant of the round trip: decoding the encoder's remaining output
from a state where the first `anchor` bytes are reconstructed yields the whole
input. -/
theorem encLoop_decode (b : List Nat) (hb : ∀ x ∈ b, x < 256) :
    ∀ (fuelE anchor : Nat) (tbl : Nat → Int) (fuelD : Nat),
      anchor < b.length → TblInv b tbl anchor →
      b.length - anchor < fuelE →
      (encLoopF fuelE tbl b anchor).length < fuelD →
      decLoopF fuelD (encLoopF fuelE tbl b anchor) b.length anchor
        (b.take anchor) = some b := by
  intro fuelE
  induction fuelE with
  | zero => intro anchor tbl fuelD h1 _ h3 _; omega
  | succ fuelE ih =>
    intro anchor tbl fuelD h1 hinv h3 hfD
    cases hfm : findMatchF (b.length + 1) tbl b anchor with
    | none =>
      simp only [encLoopF, hfm] at hfD ⊢
      obtain ⟨f, rfl⟩ : ∃ f, fuelD = f + 1 := ⟨fuelD - 1, by omega⟩
      exact decLoopF_final f b anchor h1
    | some res =>
      obtain ⟨tbl', mStart, refPos⟩ := res
      obtain ⟨hA, hB, hC, hD, hByte, hF⟩ :=
        findMatchF_sound b hb _ _ _ _ _ _ hinv hfm
      simp only [encLoopF, hfm] at hfD ⊢
      obtain ⟨hx1, hx2, hx3⟩ := extendF_sound b (b.length + 1) (mStart + 4)
        (refPos + 4) (mStart - refPos) (by omega) (by omega)
      set E := extendF (b.length + 1) b (mStart + 4) (refPos + 4) with hEdef
      rw [if_neg (show ¬(E - mStart = 0) from by omega)]
      rw [if_neg (show ¬(E - mStart = 0) from by omega)] at hfD
      simp only [List.append_assoc, List.cons_append, List.nil_append] at hfD ⊢
      obtain ⟨f, rfl⟩ : ∃ f, fuelD = f + 1 := ⟨fuelD - 1, by omega⟩
      have hhead : 1 ≤ ((if 15 ≤ mStart - anchor then
          (240 + (if E - mStart < 19 then E - mStart - 4 else 15)) ::
            extBytes (mStart - anchor - 15)
        else [(mStart - anchor) * 16 +
          (if E - mStart < 19 then E - mStart - 4 else 15)]) : List Nat).length := by
        split_ifs <;> simp
      simp only [List.length_append, List.length_cons] at hfD
      have hREST : (encLoopF fuelE tbl' b E).length < f := by omega
      have hmeq : ∀ k, mStart ≤ k → k < E →
          b.getD k 0 = b.getD (k - (mStart - refPos)) 0 := by
        intro k hk1 hk2
        by_cases hk4 : k < mStart + 4
        · have hbk := hByte (k - mStart) (by omega)
          rw [show mStart + (k - mStart) = k from by omega] at hbk
          rw [show k - (mStart - refPos) = refPos + (k - mStart) from by omega]
          exact hbk.symm
        · exact hx3 k (by omega) hk2
      rw [decLoopF_seq b anchor mStart E (mStart - refPos) f
        (encLoopF fuelE tbl' b E) hA hx1 (by omega) (by omega) (by omega) hD hmeq]
      exact ih E tbl' f (by omega)
        (tblInv_mono b tbl' (mStart + 1) E (by omega) hF) (by omega) hREST

/-- **C6 (counterexample).** The empty byte sequence does not round-trip:
`encodeBlock` emits the single token byte 0 (empty final literal run), but
`decodeBlock` skips the end-of-input break when the literal run is empty,
reads a zero match offset past the end of the input, and fails (`return;`
= no result) instead of producing the empty output. -/
theorem c6_counterexample :
    encodeBlock [] 0 = some [0] ∧
    decodeBlock [0] 0 0 = none ∧
    (none : Option (List Nat)) ≠ some [] := by
  refine ⟨by decide, by decide, by decide⟩

/-- **C6 (amended).** For every nonempty byte sequence of length 1..10000,
decoding the LZ4 block encoding reproduces the input exactly.  (The claim's
length-0 case fails: see the counterexample.) -/
theorem c6_lz4_roundtrip (b : List Nat) (hb : ∀ x ∈ b, x < 256)
    (hne : b ≠ []) (hlen : b.length ≤ 10000) :
    ∃ t, encodeBlock b 0 = some t ∧ decodeBlock t 0 b.length = some b := by
  refine ⟨List.replicate 0 0 ++ encLoopF (b.length + 1) (fun _ => -65536) b 0,
    ?_, ?_⟩
  · rw [encodeBlock, if_neg (by omega)]
  · rw [decodeBlock, List.replicate_zero, List.nil_append, List.drop_zero]
    have h := encLoop_decode b hb (b.length + 1) 0 (fun _ => -65536)
      ((encLoopF (b.length + 1) (fun _ => -65536) b 0).length + 1)
      (List.length_pos.mpr hne) (tblInv_init b) (by omega) (by omega)
    rw [List.take_zero] at h
    exact h

theorem c6_lz4_roundtrip_witness :
    ∃ t, encodeBlock [1, 2, 3] 0 = some t ∧
      decodeBlock t 0 ([1, 2, 3] : List Nat).length = some [1, 2, 3] :=
  c6_lz4_roundtrip [1, 2, 3] (by decide) (by decide) (by decide)

/-! ## Value-level serializer (`_serialize` and the `serialize` wrapper)

Values are modelled with an explicit heap so that object identity (shared
references, cycles) is representable: a `JSVal.ref i` denotes the heap node
at index `i`, and two equal indices denote the *same* JS object.  JS strings
are UTF-16 code-unit lists.  Numbers are integers (`Prim.int`) or non-integer
numbers kept as their decimal source text (`Prim.float`); no claim involves
non-integer numbers.  `HNode.view` covers all ten typed-array/DataView kinds
via the type's iota code; its `length` field is `data.length` for typed
arrays and `data.byteLength` for DataView, which is what `_serialize` writes.
`HNode.abuf` is a non-resizable ArrayBuffer, whose `maxByteLength` equals its
`byteLength`. -/

inductive Prim where
  | str (s : List Nat)
  | int (i : Int)
  | float (repr : List Nat)
  | bool (b : Bool)
  | null
  | jsUndefined
deriving DecidableEq

inductive JSVal where
  | prim (p : Prim)
  | ref (i : Nat)
deriving DecidableEq

inductive HNode where
  | obj (fields : List (List Nat × JSVal))
  | arr (items : List JSVal)
  | set (items : List JSVal)
  | map (pairs : List (JSVal × JSVal))
  | date (t : Int)
  | regexp (source flags : List Nat)
  | abuf (bytes : List Nat)
  | view (kind : Nat) (byteOffset length : Nat) (buf : JSVal)
deriving DecidableEq

/-- Serializer state: `writeRefs` (heap index → reference id), `refCounter`,
and the flattened `writeBuffer` (the final `join('')` applied as we go). -/
structure WState where
  writeRefs : List (Nat × Nat)
  refCounter : Nat
  out : List Nat
deriving DecidableEq

/-- `Map.get`: front-first association lookup (`set` prepends). -/
def alookup {β : Type} : List (Nat × β) → Nat → Option β
  | [], _ => none
  | (k, v) :: rest, x => if k = x then some v else alookup rest x

/-- The code units of the string `"undefined"`. -/
def undefinedCodes : List Nat := [117, 110, 100, 101, 102, 105, 110, 101, 100]

/-- Small/large header: a type character plus either one digit character or a
full numeral. -/
def headerSC (small large size : Nat) : List Nat :=
  if size < NUMSAFECHARS then [small, intToCharCode size]
  else large :: serializeSize size

/-- `_serialize`.  Fuel bounds the recursion depth: every composite node on a
recursion path is registered in `writeRefs` before its children are visited,
so a path can mention each heap node at most once and `heap.length + 4` fuel
always suffices; `none` is returned only on fuel exhaustion (which a
well-formed heap never triggers) or on a dangling reference (which JS values
cannot express). -/
def serAux : Nat → List HNode → JSVal → WState → Option WState
  | 0, _, _, _ => none
  | fuel + 1, heap, v, st =>
    match v with
    | .prim p =>
      match p with
      | .int i =>
        if i = 0 then some { st with out := st.out ++ [C_ZERO] }
        else if (NUMSAFECHARS : Int) ≤ i then
          some { st with out := st.out ++ C_INTEGER_LARGE_POS ::
            serializeSize i.toNat }
        else if 0 < i then
          some { st with out := st.out ++
            [C_INTEGER_SMALL_POS, intToCharCode i.toNat] }
        else if -(NUMSAFECHARS : Int) < i then
          some { st with out := st.out ++
            [C_INTEGER_SMALL_NEG, intToCharCode (-i).toNat] }
        else
          some { st with out := st.out ++ C_INTEGER_LARGE_NEG ::
            serializeSize (-i).toNat }
      | .str s =>
        if s.length < NUMSAFECHARS then
          some { st with out := st.out ++
            [intToCharCode I_STRING_SMALL, intToCharCode s.length] ++ s }
        else
          some { st with out := st.out ++
            intToCharCode I_STRING_LARGE :: serializeSize s.length ++ s }
      | .float r =>
        some { st with out := st.out ++
          intToCharCode I_FLOAT :: serializeSize r.length ++ r }
      | .bool b =>
        some { st with out := st.out ++
          [if b then intToCharCode I_BOOL_TRUE else intToCharCode I_BOOL_FALSE] }
      | .null => some { st with out := st.out ++ [intToCharCode I_NULL] }
      | .jsUndefined => some { st with out := st.out ++ [intToCharCode I_UNDEFINED] }
    | .ref idx =>
      match heap[idx]? with
      | none => none
      | some (.regexp src flags) => do
        let st1 := { st with out := st.out ++ [intToCharCode I_REGEXP] }
        let st2 ← serAux fuel heap (.prim (.str src)) st1
        serAux fuel heap (.prim (.str flags)) st2
      | some (.date t) => do
        -- `writeBuffer.push(C_DATE + _serialize(data.getTime()))`: the
        -- argument is evaluated first — pushing the timestamp's serialization
        -- — and `_serialize` returns undefined, so the pushed string is the
        -- date tag character followed by the text "undefined".
        let st1 ← serAux fuel heap (.prim (.int t)) st
        some { st1 with out := st1.out ++ intToCharCode I_DATE :: undefinedCodes }
      | some node =>
        match alookup st.writeRefs idx with
        | some r =>
          some { st with out := st.out ++
            intToCharCode I_REFERENCE :: serializeSize r }
        | none =>
          let st := { st with
            writeRefs := (idx, st.refCounter) :: st.writeRefs,
            refCounter := st.refCounter + 1 }
          match node with
          | .arr items => do
            let st1 := { st with out := st.out ++
              (headerSC (intToCharCode I_ARRAY_SMALL) (intToCharCode I_ARRAY_LARGE) items.length) }
            items.foldlM (fun s c => serAux fuel heap c s) st1
          | .set items => do
            let st1 := { st with out := st.out ++
              (headerSC (intToCharCode I_SET_SMALL) (intToCharCode I_SET_LARGE) items.length) }
            items.foldlM (fun s c => serAux fuel heap c s) st1
          | .map pairs => do
            let st1 := { st with out := st.out ++
              (headerSC (intToCharCode I_MAP_SMALL) (intToCharCode I_MAP_LARGE) pairs.length) }
            pairs.foldlM (fun s kv => do
              let s1 ← serAux fuel heap kv.1 s
              serAux fuel heap kv.2 s1) st1
          | .abuf bytes => do
            let st1 := { st with out := st.out ++
              (intToCharCode I_ARRAYBUFFER :: serializeSize bytes.length) }
            let st2 ← serAux fuel heap (.prim (.int bytes.length)) st1
            let a := analyzeArrayBuffer bytes
            let st3 ← serAux fuel heap (.prim (.bool a.2)) st2
            serAux fuel heap (.prim (.str
              (if a.2 then denseArrayBufferToStr bytes a.1
               else sparseArrayBufferToStr bytes a.1))) st3
          | .view kind off len bufv => do
            let st1 := { st with out :=
              (st.out ++ [intToCharCode kind] ++ serializeSize off ++
                serializeSize len) }
            serAux fuel heap bufv st1
          | .obj fields => do
            let st1 := { st with out := st.out ++
              (headerSC (intToCharCode I_SMALL_OBJECT) (intToCharCode I_LARGE_OBJECT) fields.length) }
            fields.foldlM (fun s f => do
              let s1 ← serAux fuel heap (.prim (.str f.1)) s
              serAux fuel heap f.2 s1) st1
          | .regexp _ _ => none  -- handled before the reference check
          | .date _ => none      -- handled before the reference check

def serFuel (heap : List HNode) : Nat := heap.length + 4

/-- One full `_serialize` run from a fresh state (`refCounter = 1`, empty
`writeRefs` and `writeBuffer`): the joined write buffer. -/
def serializeCore (root : JSVal) (heap : List HNode) : Option (List Nat) :=
  match serAux (serFuel heap) heap root ⟨[], 1, []⟩ with
  | none => none
  | some st => some st.out

/-- The plain (uncompressed) `serialize` output: magic prefix plus the joined
write buffer. -/
def serializePlainF (root : JSVal) (heap : List HNode) : Option (List Nat) :=
  match serializeCore root heap with
  | none => none
  | some out => some (MAGICPREFIX ++ out)

/-! ## Value-level deserializer (`_deserialize` and the `deserialize` wrapper)

The reconstructed value also lives in a heap (`DNode`), appended to in the
order objects are *completed*: `_deserialize` registers a composite in
`readRefs` only after all its children have been parsed, matching the
`readRefs.set(refCounter++, out)` lines that run after the child loops.
Object keys are the deserialized key values themselves (`out[k] = v` with the
keys the serializer emits, which are strings).  `Option.none` at the outer
level models runs with no defined JS outcome in this embedding: fuel
exhaustion (only reachable on malformed streams whose declared sizes exceed
the remaining input), the non-terminating numeral reads of `deserializeSize`
(claim C10), and reads whose JS value would be `NaN`-poisoned
(`charCodeToInt[...]` of an out-of-range or non-ASCII character used as a
size); no claim below depends on those streams. -/

inductive DVal where
  | prim (p : Prim)
  | ref (i : Nat)
deriving DecidableEq

inductive DNode where
  | obj (fields : List (DVal × DVal))
  | arr (items : List DVal)
  | set (items : List DVal)
  | map (pairs : List (DVal × DVal))
  | date (t : DVal)
  | regexp (source flags : DVal)
  | abuf (bytes : List Nat)
  | view (kind : Nat) (byteOffset length : Nat) (buf : DVal)
deriving DecidableEq

structure RState where
  ptr : Nat
  readRefs : List (Nat × DVal)
  refCounter : Nat
  dheap : List DNode
deriving DecidableEq

def FAILMARK : Nat := 9007199254740991

/-- JS truthiness of a deserialized value (`if (dense)`). -/
def dvTruthy : DVal → Bool
  | .prim (.bool b) => b
  | .prim (.int i) => decide (i ≠ 0)
  | .prim (.str s) => decide (s ≠ [])
  | .prim (.float _) => true
  | .prim .null => false
  | .prim .jsUndefined => false
  | .ref _ => true

/-- `charCodeToInt[readStr.charCodeAt(ptr++)]` used as a number (a small size
or digit): out-of-range and non-ASCII reads yield JS `NaN`/`undefined` and
are model failures (`none`). -/
def readCharInt (s : List Nat) (ptr : Nat) : Option Nat :=
  if ptr < s.length then charCodeToIntU (s.getD ptr 0) else none

/-- `deserializeSize()`: `none` when the digit loop would not terminate or
the value would be `NaN`. -/
def readSize (s : List Nat) (ptr : Nat) : Option (Nat × Nat) :=
  match deserializeSizeF (s.length + 1) s ptr with
  | some (some n, p) => some (n, p)
  | _ => none

/-- `while ( size-- ) { out.push(_deserialize()); }` -/
def deserCountF (f : RState → Option (DVal × RState)) :
    Nat → RState → List DVal → Option (List DVal × RState)
  | 0, st, acc => some (acc, st)
  | n + 1, st, acc =>
    match f st with
    | none => none
    | some (v, st') => deserCountF f n st' (acc ++ [v])

/-- `while ( size-- ) { const k = _deserialize(); const v = _deserialize(); ... }` -/
def deserPairCountF (f : RState → Option (DVal × RState)) :
    Nat → RState → List (DVal × DVal) → Option (List (DVal × DVal) × RState)
  | 0, st, acc => some (acc, st)
  | n + 1, st, acc =>
    match f st with
    | none => none
    | some (k, st1) =>
      match f st1 with
      | none => none
      | some (v, st2) => deserPairCountF f n st2 (acc ++ [(k, v)])

/-- `_deserialize`. -/
def deserAux : Nat → List Nat → RState → Option (DVal × RState)
  | 0, _, _ => none
  | fuel + 1, s, st =>
    if s.length ≤ st.ptr then some (.prim .jsUndefined, st)
    else
      let ptr := st.ptr + 1
      match charCodeToIntU (s.getD st.ptr 0) with
      | some 1 =>
        match readCharInt s ptr with
        | none => none
        | some size =>
          some (.prim (.str ((s.drop (ptr + 1)).take size)),
            { st with ptr := ptr + 1 + size })
      | some 2 =>
        match readSize s ptr with
        | none => none
        | some (size, p2) =>
          some (.prim (.str ((s.drop p2).take size)), { st with ptr := p2 + size })
      | some 3 => some (.prim (.int 0), { st with ptr := ptr })
      | some 4 =>
        match readCharInt s ptr with
        | none => none
        | some v => some (.prim (.int v), { st with ptr := ptr + 1 })
      | some 5 =>
        match readCharInt s ptr with
        | none => none
        | some v => some (.prim (.int (-(v : Int))), { st with ptr := ptr + 1 })
      | some 6 =>
        match readSize s ptr with
        | none => none
        | some (n, p2) => some (.prim (.int n), { st with ptr := p2 })
      | some 7 =>
        match readSize s ptr with
        | none => none
        | some (n, p2) => some (.prim (.int (-(n : Int))), { st with ptr := p2 })
      | some 8 => some (.prim (.bool false), { st with ptr := ptr })
      | some 9 => some (.prim (.bool true), { st with ptr := ptr })
      | some 10 => some (.prim .null, { st with ptr := ptr })
      | some 11 => some (.prim .jsUndefined, { st with ptr := ptr })
      | some 12 =>
        match readSize s ptr with
        | none => none
        | some (size, p2) =>
          -- parseFloat(slice): the number is kept as its source text
          some (.prim (.float ((s.drop p2).take size)), { st with ptr := p2 + size })
      | some 13 => do
        let (src, st1) ← deserAux fuel s { st with ptr := ptr }
        let (flg, st2) ← deserAux fuel s st1
        -- new RegExp(...): a fresh node, not reference-tracked on either side
        some (.ref st2.dheap.length, { st2 with
          dheap := st2.dheap ++ [DNode.regexp src flg] })
      | some 14 => do
        let (tv, st1) ← deserAux fuel s { st with ptr := ptr }
        some (.ref st1.dheap.length, { st1 with
              dheap := st1.dheap ++ [DNode.date tv] })
      | some 15 =>
        match readSize s ptr with
        | none => none
        | some (r, p2) =>
          match alookup st.readRefs r with
          | some v => some (v, { st with ptr := p2 })
          | none => some (.prim .jsUndefined, { st with ptr := p2 })
      | some 16 =>
        match readCharInt s ptr with
        | none => none
        | some size => do
          let (fields, st1) ← deserPairCountF (deserAux fuel s) size
            { st with ptr := ptr + 1 } []
          some (.ref st1.dheap.length,
            { st1 with
              dheap := st1.dheap ++ [DNode.obj fields],
              readRefs := (st1.refCounter, DVal.ref st1.dheap.length) :: st1.readRefs,
              refCounter := st1.refCounter + 1 })
      | some 17 =>
        match readSize s ptr with
        | none => none
        | some (size, p2) => do
          let (fields, st1) ← deserPairCountF (deserAux fuel s) size
            { st with ptr := p2 } []
          some (.ref st1.dheap.length,
            { st1 with
              dheap := st1.dheap ++ [DNode.obj fields],
              readRefs := (st1.refCounter, DVal.ref st1.dheap.length) :: st1.readRefs,
              refCounter := st1.refCounter + 1 })
      | some 18 =>
        match readCharInt s ptr with
        | none => none
        | some size => do
          let (items, st1) ← deserCountF (deserAux fuel s) size
            { st with ptr := ptr + 1 } []
          some (.ref st1.dheap.length,
            { st1 with
              dheap := st1.dheap ++ [DNode.arr items],
              readRefs := (st1.refCounter, DVal.ref st1.dheap.length) :: st1.readRefs,
              refCounter := st1.refCounter + 1 })
      | some 19 =>
        match readSize s ptr with
        | none => none
        | some (size, p2) => do
          let (items, st1) ← deserCountF (deserAux fuel s) size
            { st with ptr := p2 } []
          some (.ref st1.dheap.length,
            { st1 with
              dheap := st1.dheap ++ [DNode.arr items],
              readRefs := (st1.refCounter, DVal.ref st1.dheap.length) :: st1.readRefs,
              refCounter := st1.refCounter + 1 })
      | some 20 =>
        match readCharInt s ptr with
        | none => none
        | some size => do
          let (items, st1) ← deserCountF (deserAux fuel s) size
            { st with ptr := ptr + 1 } []
          some (.ref st1.dheap.length,
            { st1 with
              dheap := st1.dheap ++ [DNode.set items],
              readRefs := (st1.refCounter, DVal.ref st1.dheap.length) :: st1.readRefs,
              refCounter := st1.refCounter + 1 })
      | some 21 =>
        match readSize s ptr with
        | none => none
        | some (size, p2) => do
          let (items, st1) ← deserCountF (deserAux fuel s) size
            { st with ptr := p2 } []
          some (.ref st1.dheap.length,
            { st1 with
              dheap := st1.dheap ++ [DNode.set items],
              readRefs := (st1.refCounter, DVal.ref st1.dheap.length) :: st1.readRefs,
              refCounter := st1.refCounter + 1 })
      | some 22 =>
        match readCharInt s ptr with
        | none => none
        | some size => do
          let (pairs, st1) ← deserPairCountF (deserAux fuel s) size
            { st with ptr := ptr + 1 } []
          some (.ref st1.dheap.length,
            { st1 with
              dheap := st1.dheap ++ [DNode.map pairs],
              readRefs := (st1.refCounter, DVal.ref st1.dheap.length) :: st1.readRefs,
              refCounter := st1.refCounter + 1 })
      | some 23 =>
        match readSize s ptr with
        | none => none
        | some (size, p2) => do
          let (pairs, st1) ← deserPairCountF (deserAux fuel s) size
            { st with ptr := p2 } []
          some (.ref st1.dheap.length,
            { st1 with
              dheap := st1.dheap ++ [DNode.map pairs],
              readRefs := (st1.refCounter, DVal.ref st1.dheap.length) :: st1.readRefs,
              refCounter := st1.refCounter + 1 })
      | some 24 =>
        match readSize s ptr with
        | none => none
        | some (byteLength, p2) => do
          let (_, st1) ← deserAux fuel s { st with ptr := p2 }
          -- maxByteLength only selects resizability options; the serializer
          -- always emits the plain byteLength, giving a non-resizable buffer.
          let (dense, st2) ← deserAux fuel s st1
          let (strv, st3) ← deserAux fuel s st2
          match strv with
          | .prim (.str str) =>
            let buf0 := List.replicate byteLength 0
            match (if dvTruthy dense then some (denseArrayBufferFromStr str buf0)
                   else sparseArrayBufferFromStr str buf0) with
            | none => none
            | some bytes =>
              some (.ref st3.dheap.length,
                { st3 with
                  dheap := st3.dheap ++ [DNode.abuf bytes],
                  readRefs := (st3.refCounter, DVal.ref st3.dheap.length) :: st3.readRefs,
                  refCounter := st3.refCounter + 1 })
          | _ => none  -- charCodeAt on a non-string; the serializer never emits this
      | some t =>
        if 25 ≤ t ∧ t ≤ 34 then
          match readSize s ptr with
          | none => none
          | some (byteOffset, p2) =>
            match readSize s p2 with
            | none => none
            | some (length, p3) => do
              let (bufv, st1) ← deserAux fuel s { st with ptr := p3 }
              some (.ref st1.dheap.length,
                { st1 with
              dheap := st1.dheap ++ [DNode.view t byteOffset length bufv],
                  readRefs := (st1.refCounter, DVal.ref st1.dheap.length) :: st1.readRefs,
                  refCounter := st1.refCounter + 1 })
        else some (.prim .jsUndefined, { st with ptr := FAILMARK })
      | none => some (.prim .jsUndefined, { st with ptr := FAILMARK })

/-- Fuel for `_deserialize`: on any stream whose declared sizes are consistent
with the input, every recursive call past the first consumes at least one
input character, so `length + 2` calls suffice. -/
def deserFuel (s : List Nat) : Nat := s.length + 2

/-- The plain-prefix half of `deserialize`. -/
def deserializePlainF (s : List Nat) :
    Option (Except Unit (Option (DVal × List DNode))) :=
  if MAGICPREFIX <+: s then
    match deserAux (deserFuel s) s ⟨MAGICPREFIX.length, [], 1, []⟩ with
    | none => none
    | some (v, st) =>
      some (.ok (if st.ptr = FAILMARK then none else some (v, st.dheap)))
  else some (.ok none)

/-- JS member access `v[key]` with a string key: `none` is the TypeError of
reading a property of `undefined`/`null`; other primitives and non-object
nodes simply have no such own property. -/
def getFieldD (dheap : List DNode) (v : DVal) (key : List Nat) : Option DVal :=
  match v with
  | .prim .jsUndefined => none
  | .prim .null => none
  | .prim _ => some (.prim .jsUndefined)
  | .ref i =>
    match dheap[i]? with
    | some (.obj fields) =>
      some (((fields.find? (fun f => decide (f.1 = DVal.prim (.str key)))).map
        Prod.snd).getD (.prim .jsUndefined))
    | _ => some (.prim .jsUndefined)

/-! UTF-8 codecs (`TextEncoder().encode` / `TextDecoder().decode`), operating
between UTF-16 code-unit lists and byte lists, with the standard lone-
surrogate (encode) and invalid-byte (decode) replacement by U+FFFD. -/

def utf8EncChar (cp : Nat) : List Nat :=
  if cp < 0x80 then [cp]
  else if cp < 0x800 then [0xC0 + cp / 64, 0x80 + cp % 64]
  else if cp < 0x10000 then
    [0xE0 + cp / 4096, 0x80 + cp / 64 % 64, 0x80 + cp % 64]
  else [0xF0 + cp / 262144, 0x80 + cp / 4096 % 64, 0x80 + cp / 64 % 64,
    0x80 + cp % 64]

def utf8EncodeF : Nat → List Nat → List Nat
  | 0, _ => []
  | _, [] => []
  | fuel + 1, c :: rest =>
    if 0xD800 ≤ c ∧ c < 0xDC00 then
      match rest with
      | c2 :: rest2 =>
        if 0xDC00 ≤ c2 ∧ c2 < 0xE000 then
          utf8EncChar (0x10000 + (c - 0xD800) * 1024 + (c2 - 0xDC00)) ++
            utf8EncodeF fuel rest2
        else utf8EncChar 0xFFFD ++ utf8EncodeF fuel rest
      | [] => utf8EncChar 0xFFFD
    else if 0xDC00 ≤ c ∧ c < 0xE000 then utf8EncChar 0xFFFD ++ utf8EncodeF fuel rest
    else utf8EncChar c ++ utf8EncodeF fuel rest

/-- Each step consumes at least one code unit, so `length + 1` fuel always
suffices. -/
def utf8Encode (s : List Nat) : List Nat := utf8EncodeF (s.length + 1) s

/-- A decoded code point as UTF-16 code units. -/
def utf16Units (cp : Nat) : List Nat :=
  if cp < 0x10000 then [cp]
  else [0xD800 + (cp - 0x10000) / 1024, 0xDC00 + (cp - 0x10000) % 1024]

def utf8DecodeF : Nat → List Nat → List Nat
  | 0, _ => []
  | _, [] => []
  | fuel + 1, b :: rest =>
    if b < 0x80 then b :: utf8DecodeF fuel rest
    else if b < 0xC2 then 0xFFFD :: utf8DecodeF fuel rest
    else if b < 0xE0 then
      match rest with
      | b2 :: rest2 =>
        if 0x80 ≤ b2 ∧ b2 < 0xC0 then
          ((b - 0xC0) * 64 + (b2 - 0x80)) :: utf8DecodeF fuel rest2
        else 0xFFFD :: utf8DecodeF fuel rest
      | [] => [0xFFFD]
    else if b < 0xF0 then
      match rest with
      | b2 :: rest2 =>
        if (if b = 0xE0 then 0xA0 else 0x80) ≤ b2 ∧
            b2 ≤ (if b = 0xED then 0x9F else 0xBF) then
          match rest2 with
          | b3 :: rest3 =>
            if 0x80 ≤ b3 ∧ b3 < 0xC0 then
              utf16Units ((b - 0xE0) * 4096 + (b2 - 0x80) * 64 + (b3 - 0x80)) ++
                utf8DecodeF fuel rest3
            else 0xFFFD :: utf8DecodeF fuel rest2
          | [] => [0xFFFD]
        else 0xFFFD :: utf8DecodeF fuel rest
      | [] => [0xFFFD]
    else if b < 0xF5 then
      match rest with
      | b2 :: rest2 =>
        if (if b = 0xF0 then 0x90 else 0x80) ≤ b2 ∧
            b2 ≤ (if b = 0xF4 then 0x8F else 0xBF) then
          match rest2 with
          | b3 :: rest3 =>
            if 0x80 ≤ b3 ∧ b3 < 0xC0 then
              match rest3 with
              | b4 :: rest4 =>
                if 0x80 ≤ b4 ∧ b4 < 0xC0 then
                  utf16Units ((b - 0xF0) * 262144 + (b2 - 0x80) * 4096 +
                    (b3 - 0x80) * 64 + (b4 - 0x80)) ++ utf8DecodeF fuel rest4
                else 0xFFFD :: utf8DecodeF fuel rest3
              | [] => [0xFFFD]
            else 0xFFFD :: utf8DecodeF fuel rest2
          | [] => [0xFFFD]
        else 0xFFFD :: utf8DecodeF fuel rest
      | [] => [0xFFFD]
    else 0xFFFD :: utf8DecodeF fuel rest

def utf8Decode (bs : List Nat) : List Nat := utf8DecodeF (bs.length + 1) bs

def dataKey : List Nat := [100, 97, 116, 97]

def sizeKey : List Nat := [115, 105, 122, 101]

/-- `deserialize(s)`: the LZ4 branch re-reads the `{size, data}` wrapper,
decompresses, decodes, and falls through to the plain branch.
`some (.error ())` is a thrown exception (`lz4.data` on a non-object,
`lz4Util.decode` on an input that is neither an ArrayBuffer nor a
Uint8Array); a failed `decodeBlock` (`return;`) makes
`new Uint8Array(undefined)` an empty buffer, which decodes to the empty
string and then fails the plain-prefix test. -/
def deserializeF (s : List Nat) :
    Option (Except Unit (Option (DVal × List DNode))) :=
  if MAGICLZ4PREFIX <+: s then
    match deserAux (deserFuel s) s ⟨MAGICLZ4PREFIX.length, [], 1, []⟩ with
    | none => none
    | some (lz4v, stL) =>
      match getFieldD stL.dheap lz4v dataKey, getFieldD stL.dheap lz4v sizeKey with
      | none, _ => some (.error ())
      | _, none => some (.error ())
      | some dataV, some sizeV =>
        match (match dataV with
          | .ref j =>
            match stL.dheap[j]? with
            | some (.view 26 off len bufv) =>
              -- a Uint8Array view: the bytes it exposes over its buffer
              match bufv with
              | .ref k =>
                match stL.dheap[k]? with
                | some (.abuf bytes) => some (some ((bytes.drop off).take len))
                | _ => none
              | _ => none
            | some (.abuf bytes) => some (some bytes)
            | _ => some none  -- TypeError in lz4Util.decode
          | .prim _ => some none) with
        | none => none
        | some none => some (.error ())
        | some (some input) =>
          match sizeV with
          | .prim (.int n) =>
            if n < 0 then none
            else
              match decodeBlock input 0 n.toNat with
              | some outBytes => deserializePlainF (utf8Decode outBytes)
              | none => deserializePlainF []
          | _ => none  -- a non-numeric size NaN-poisons the output allocation
  else deserializePlainF s

/-- `serialize(data, options)`: the compressed form is chosen over the plain
form when `t.length / s.length <= 0.85`.  The float comparison agrees with
the rational `20 * t.length ≤ 17 * s.length`: for lengths below 2^32 the
two sides of `t/s − 0.85` differ by at least `1/(20·s) > 2^−37` whenever they
differ at all, far above the rounding error of the division and of the
literal `0.85`, and `t/s = 17/20` exactly also compares `≤`. -/
def serializeF (root : JSVal) (heap : List HNode) (compress : Bool) :
    Option (List Nat) :=
  match serializePlainF root heap with
  | none => none
  | some s =>
    if compress = false then some s
    else
      match encodeBlock (utf8Encode s) 0 with
      | none => none  -- RangeError propagates out of serialize
      | some comp =>
        match serializeCore (JSVal.ref 2)
          [HNode.abuf comp,
           HNode.view I_UINT8ARRAY 0 comp.length (JSVal.ref 0),
           HNode.obj [(sizeKey, JSVal.prim (Prim.int (utf8Encode s).length)),
             (dataKey, JSVal.ref 1)]] with
        | none => none
        | some out2 =>
          let t := MAGICLZ4PREFIX ++ out2
          some (if 20 * t.length ≤ 17 * s.length then t else s)

/-- **C1.** Shared references do not survive the round trip: serializing the
array `[o, o]` with `o = {a: 1}` (the same object twice) and deserializing
yields an array whose first entry is the reconstructed object but whose
second entry is `undefined`.  The write side registers a composite in
`writeRefs` *before* serializing its children (so `o` gets id 2, after the
array's id 1), while the read side registers in `readRefs` only *after* the
children are parsed (so when the back-reference `2` is read, only id 1 — the
object — is registered, and `readRefs.get(2)` is `undefined`). -/
theorem c1_sharedref_eval :
    serializeF (JSVal.ref 1)
      [HNode.obj [([97], JSVal.prim (Prim.int 1))],
       HNode.arr [JSVal.ref 0, JSVal.ref 0]] false =
      some [85, 79, 83, 67, 95, 49, 32, 56, 40, 54, 39, 39, 39, 97, 42, 39,
        53, 40, 32] ∧
    deserializeF [85, 79, 83, 67, 95, 49, 32, 56, 40, 54, 39, 39, 39, 97, 42,
      39, 53, 40, 32] =
      some (Except.ok (some (DVal.ref 1,
        [DNode.obj [(DVal.prim (Prim.str [97]), DVal.prim (Prim.int 1))],
         DNode.arr [DVal.ref 0, DVal.prim Prim.jsUndefined]]))) := by
  refine ⟨by decide, by rfl⟩

/-- **C5.** A Date does not serialize as the date tag followed by its
timestamp: `writeBuffer.push(C_DATE + _serialize(data.getTime()))` evaluates
`_serialize` first (emitting the timestamp serialization) and then appends
the date tag concatenated with the string `"undefined"` (the return value of
`_serialize`).  Deserializing the result reads the leading timestamp tag and
returns the *number* 0 — not a Date — leaving the rest of the input
unconsumed. -/
theorem c5_date_eval :
    serializeF (JSVal.ref 0) [HNode.date 0] false =
      some (MAGICPREFIX ++ [C_ZERO, intToCharCode I_DATE] ++ undefinedCodes) ∧
    deserializeF (MAGICPREFIX ++ [C_ZERO, intToCharCode I_DATE] ++
        undefinedCodes) =
      some (Except.ok (some (DVal.prim (Prim.int 0), []))) := by
  refine ⟨by decide, by rfl⟩

/-- **C2 (counterexample).** An input with the plain magic prefix whose
content is a one-element array holding the out-of-range back-reference `2`
deserializes to that array with `undefined` spliced in — a partially
constructed value is returned, not "no result".  And the bare LZ4 magic
prefix makes `deserialize` throw (`lz4.data` with `lz4` undefined), not
return "no result". -/
theorem c2_counterexample :
    deserializeF (MAGICPREFIX ++ [56, 39, 53, 40, 32]) =
      some (Except.ok (some (DVal.ref 0, [DNode.arr [DVal.prim Prim.jsUndefined]]))) ∧
    (some (Except.ok (some (DVal.ref 0, [DNode.arr [DVal.prim Prim.jsUndefined]]))) :
        Option (Except Unit (Option (DVal × List DNode)))) ≠
      some (Except.ok none) ∧
    deserializeF MAGICLZ4PREFIX = some (Except.error ()) := by
  refine ⟨by rfl, by simp, by rfl⟩

theorem charCodeToInt_lt (c : Nat) : charCodeToInt c < 88 := by
  simp only [charCodeToInt]
  split_ifs <;> omega

theorem charCodeToIntU_lt (c t : Nat) (h : charCodeToIntU c = some t) :
    t < 88 := by
  simp only [charCodeToIntU] at h
  by_cases hc : c < 128
  · rw [if_pos hc] at h
    rw [← Option.some.inj h]
    exact charCodeToInt_lt c
  · rw [if_neg hc] at h
    exact absurd h (by simp)

theorem not_lz4_prefix_of_plain (x : List Nat) :
    ¬ MAGICLZ4PREFIX <+: MAGICPREFIX ++ x := by
  intro h
  obtain ⟨t, ht⟩ := h
  have h4 := congrArg (fun l => l[4]?) ht
  simp [MAGICLZ4PREFIX, MAGICPREFIX] at h4

/-- An unrecognized type tag (`charCodeToInt` 0, 35–87, or a non-ASCII read)
sets the cursor to `FAILMARK` and returns `undefined`. -/
theorem deserAux_unknown (fuel : Nat) (s : List Nat) (st : RState)
    (hlt : st.ptr < s.length)
    (hun : ∀ t, charCodeToIntU (s.getD st.ptr 0) = some t → t = 0 ∨ 35 ≤ t) :
    deserAux (fuel + 1) s st =
      some (.prim .jsUndefined, { st with ptr := FAILMARK }) := by
  simp only [deserAux]
  rw [if_neg (by omega)]
  cases hc : charCodeToIntU (s.getD st.ptr 0) with
  | none => rfl
  | some t =>
    have hb := charCodeToIntU_lt _ _ hc
    rcases hun t hc with h0 | h35
    · subst h0
      rfl
    · interval_cases t <;> rfl

/-- **C2 (amended).** An input without a recognized magic prefix yields no
result, and a plain-prefixed input whose root type tag is unrecognized aborts
with no result.  (The claim's further assertions fail: an out-of-range
back-reference id does not abort — `undefined` is spliced into the value and
the partially reconstructed value *is* returned — and the LZ4 branch can
throw; see the counterexample.) -/
theorem c2_error_handling (s : List Nat) :
    (¬ MAGICPREFIX <+: s → ¬ MAGICLZ4PREFIX <+: s →
      deserializeF s = some (Except.ok none)) ∧
    (∀ c rest, s = MAGICPREFIX ++ c :: rest →
      (∀ t, charCodeToIntU c = some t → t = 0 ∨ 35 ≤ t) →
      deserializeF s = some (Except.ok none)) := by
  constructor
  · intro h1 h2
    simp only [deserializeF]
    rw [if_neg h2]
    simp only [deserializePlainF]
    rw [if_neg h1]
  · intro c rest hs hun
    subst hs
    simp only [deserializeF]
    rw [if_neg (not_lz4_prefix_of_plain _)]
    simp only [deserializePlainF]
    rw [if_pos ⟨c :: rest, rfl⟩]
    have hgetd : (MAGICPREFIX ++ c :: rest).getD MAGICPREFIX.length 0 = c := by
      rw [show MAGICPREFIX.length = MAGICPREFIX.length + 0 from rfl,
        getD_append_right]
      rfl
    have hfuel : deserFuel (MAGICPREFIX ++ c :: rest) =
        ((MAGICPREFIX ++ c :: rest).length + 1) + 1 := rfl
    rw [hfuel, deserAux_unknown ((MAGICPREFIX ++ c :: rest).length + 1)
      (MAGICPREFIX ++ c :: rest) ⟨MAGICPREFIX.length, [], 1, []⟩
      (by simp [MAGICPREFIX])
      (fun t ht => hun t (by rwa [show ((⟨MAGICPREFIX.length, [], 1, []⟩ :
        RState)).ptr = MAGICPREFIX.length from rfl, hgetd] at ht))]
    rfl

theorem c2_error_handling_witness :
    deserializeF [40, 41, 42] = some (Except.ok none) :=
  (c2_error_handling [40, 41, 42]).1 (by decide) (by decide)

/-- **C7.** When compression is requested, `serialize` returns either the
plain form unchanged or the LZ4-wrapped form, and the latter only when its
length is at most 0.85× the plain length (`t.length / s.length <= 0.85`,
which for these integer lengths is exactly `20·t ≤ 17·s`). -/
theorem c7_compress_ratio (root : JSVal) (heap : List HNode) (r : List Nat)
    (h : serializeF root heap true = some r) :
    ∃ s, serializeF root heap false = some s ∧
      (r = s ∨ 20 * r.length ≤ 17 * s.length) := by
  simp only [serializeF] at h ⊢
  split at h
  · exact absurd h (by simp)
  · rename_i s hp
    refine ⟨s, by rw [if_pos trivial], ?_⟩
    rw [if_neg (by simp)] at h
    split at h
    · exact absurd h (by simp)
    · split at h
      · exact absurd h (by simp)
      · rename_i out2 hout2
        have hr := Option.some.inj h
        by_cases hc : 20 * (MAGICLZ4PREFIX ++ out2).length ≤ 17 * s.length
        · rw [if_pos hc] at hr
          rw [← hr]
          exact Or.inr hc
        · rw [if_neg hc] at hr
          exact Or.inl hr.symm

theorem c7_compress_ratio_witness :
    ∃ r, serializeF (JSVal.prim (Prim.int 0)) [] true = some r ∧
      ∃ s, serializeF (JSVal.prim (Prim.int 0)) [] false = some s ∧
        (r = s ∨ 20 * r.length ≤ 17 * s.length) :=
  ⟨[85, 79, 83, 67, 95, 49, 32, 41], by decide,
    c7_compress_ratio (JSVal.prim (Prim.int 0)) [] _ (by decide)⟩

end Scuo
